import Mathlib

/-!
# Peak detection (`src/peak_detection.cpp`)

A shallow embedding of the four exported functions of `peak_detection.cpp`
and the properties established about them.

Conventions of the embedding.

* An `IntegerVector` is a `List Int`, a `NumericVector` a `List ℚ`, a
  `LogicalVector` a `List Bool`.  C `int` values are mathematical integers
  (signed overflow is undefined in C++, so the embedding describes the runs
  in which it does not occur); `double` values are exact rationals (no
  rounding, no NaN, no infinities).  `calculateQuantilePositionCpp` is
  embedded a second time with rounded double arithmetic (`Binary64`), for
  the one property that rounding decides.
* `v[i]` is `v.getD i 0`.  The source indexes without a bounds check; the
  properties that depend on the values read are stated for vectors of
  matching length, where each index read is in bounds.
* `stop(msg)` is `Except.error msg`; a returned value is `Except.ok`.
* An entry of an integer vector that may hold `NA_INTEGER` is an
  `Option Int`.
-/

namespace PeakDetection

/-! ## findPeaksCpp -/

/-- Left expansion loop of `findPeaksCpp` (line 43):
`while(left > 0 && positions[left-1] >= current_pos - peakDistance) left--;`
The argument is the current value of `left`, `lo` is
`current_pos - peakDistance`; the result is the value of `left` on exit. -/
def expandLeft (positions : List Int) (lo : Int) : Nat → Nat
  | 0 => 0
  | left + 1 =>
    if positions.getD left 0 ≥ lo then expandLeft positions lo left else left + 1

/-- Right expansion loop of `findPeaksCpp` (line 48):
`while(right < n-1 && positions[right+1] <= current_pos + peakDistance) right++;`
The first numeric argument is `n - 1 - right` (so it is `0` exactly when the
guard `right < n-1` fails, and drops by one when `right` grows by one), the
second is `right`, `hi` is `current_pos + peakDistance`; the result is the
value of `right` on exit. -/
def expandRight (positions : List Int) (hi : Int) : Nat → Nat → Nat
  | 0, right => right
  | gap + 1, right =>
    if positions.getD (right + 1) 0 ≤ hi then expandRight positions hi gap (right + 1)
    else right

/-- The three locals `max_tag`, `max_idx`, `is_peak` of the window scan. -/
structure ScanState where
  max_tag : ℚ
  max_idx : Nat
  is_peak : Bool
deriving DecidableEq

/-- Body of the window scan (lines 58-62) for one index `j`. -/
def scanStep (tags : List ℚ) (st : ScanState) (j : Nat) : ScanState :=
  if tags.getD j 0 > st.max_tag ∨ (tags.getD j 0 = st.max_tag ∧ j < st.max_idx) then
    { max_tag := tags.getD j 0, max_idx := j, is_peak := false }
  else st

/-- The window scan `for(int j = left; j <= right; j++)` (lines 53-63),
started from `is_peak = true`, `max_idx = i`, `max_tag = tags[i]`. -/
def scanWindow (tags : List ℚ) (left right i : Nat) : ScanState :=
  (List.range' left (right + 1 - left)).foldl (scanStep tags)
    { max_tag := tags.getD i 0, max_idx := i, is_peak := true }

/-- Value of `left` for sample `i` after the left expansion (lines 39-45). -/
def windowLeft (positions : List Int) (peakDistance : Int) (i : Nat) : Nat :=
  expandLeft positions (positions.getD i 0 - peakDistance) i

/-- Value of `right` for sample `i` after the right expansion (lines 40-50);
`n` is `positions.size()`. -/
def windowRight (positions : List Int) (peakDistance : Int) (n i : Nat) : Nat :=
  expandRight positions (positions.getD i 0 + peakDistance) (n - 1 - i) i

/-- One iteration of the outer loop of `findPeaksCpp` (lines 33-69): the
vector `peakID` after the iteration for sample `i`. -/
def peakIteration (positions : List Int) (tags : List ℚ) (peakDistance : Int) (n : Nat)
    (peakID : List Int) (i : Nat) : List Int :=
  let left := windowLeft positions peakDistance i
  let right := windowRight positions peakDistance n i
  let st := scanWindow tags left right i
  if st.is_peak = true ∨ i = st.max_idx then peakID.set i ((i : Int) + 1) else peakID

/-- Embedding of `findPeaksCpp` (lines 15-72). -/
def findPeaksCpp (positions : List Int) (tags : List ℚ) (peakDistance : Int) :
    Except String (List Int) :=
  let n := positions.length
  let peakID : List Int := List.replicate n 0
  if n = 0 then Except.ok peakID
  else if positions.length ≠ tags.length then
    Except.error "positions and tags must have same length"
  else if peakDistance ≤ 0 then
    Except.error "peakDistance must be positive"
  else
    Except.ok ((List.range n).foldl (peakIteration positions tags peakDistance n) peakID)

/-- Spec-side predicate: `i` is the winning index of the window
`[left, right]`, the lowest index among those holding the maximum tag. -/
def IsWindowWinner (tags : List ℚ) (left right i : Nat) : Prop :=
  ∀ j, left ≤ j → j ≤ right →
    (j < i → tags.getD j 0 < tags.getD i 0) ∧ (i < j → tags.getD j 0 ≤ tags.getD i 0)

/-! ## localFilterCpp -/

/-- The filtering region of one peak (lines 114-121): the pair
`(region_start, region_end)`. -/
def filterRegion (strand : String) (peak_pos peakDistance : Int) : Int × Int :=
  if strand = "+" then (peak_pos, peak_pos + peakDistance)
  else (peak_pos - peakDistance, peak_pos)

/-- The pass of `localFilterCpp` for one peak (lines 108-130): the vector
`keep` after the inner loop over all samples; `n` is `positions.size()`. -/
def filterPass (positions : List Int) (tags : List ℚ) (peakDistance : Int)
    (localThreshold : ℚ) (strand : String) (n : Nat) (keep : List Bool) (peak_idx : Nat) :
    List Bool :=
  let peak_pos := positions.getD peak_idx 0
  let peak_tag := tags.getD peak_idx 0
  let threshold := peak_tag * localThreshold
  let region := filterRegion strand peak_pos peakDistance
  (List.range n).foldl
    (fun keep i =>
      if positions.getD i 0 ≥ region.1 ∧ positions.getD i 0 ≤ region.2 then
        if tags.getD i 0 < threshold ∧ i ≠ peak_idx then keep.set i false else keep
      else keep)
    keep

/-- Embedding of `localFilterCpp` (lines 86-134).  `peak_positions` is the
list of indices `i < n` with `peakIndices[i] > 0`, in ascending order. -/
def localFilterCpp (positions : List Int) (tags : List ℚ) (peakIndices : List Int)
    (peakDistance : Int) (localThreshold : ℚ) (strand : String) : Except String (List Bool) :=
  let n := positions.length
  let keep : List Bool := List.replicate n true
  if n = 0 then Except.ok keep
  else
    let peak_positions := (List.range n).filter (fun i => decide (peakIndices.getD i 0 > 0))
    Except.ok
      (peak_positions.foldl (filterPass positions tags peakDistance localThreshold strand n) keep)

/-- Modelled from the spec: `NA_INTEGER`, the macro of the R headers that
`peak_detection.cpp` returns and stores but does not define; the spec calls
it the null entry of a result, distinct from every integer position. -/
def NA_INTEGER : Option Int := none

/-- The scan loops of `calculateQuantilePositionCpp` (lines 165-171 and
174-180): the indices still to visit are given in scan order, `cumsum` is the
running sum before the next index, and `fallback` is the value returned
after the loop. -/
def quantileScan (positions : List Int) (tags : List ℚ) (threshold : ℚ) (fallback : Int) :
    List Nat → ℚ → Int
  | [], _ => fallback
  | i :: rest, cumsum =>
    if cumsum + tags.getD i 0 > threshold then positions.getD i 0
    else quantileScan positions tags threshold fallback rest (cumsum + tags.getD i 0)

/-- Embedding of `calculateQuantilePositionCpp` (lines 146-182).  The
backward loop `for(int i = n-1; i >= 0; i--)` visits `(List.range n).reverse`,
the forward loop `List.range n`. -/
def calculateQuantilePositionCpp (positions : List Int) (tags : List ℚ) (quantile : ℚ)
    (from_end : Bool) : Except String (Option Int) :=
  let n := positions.length
  if n = 0 then Except.ok NA_INTEGER
  else
    let total : ℚ := (List.range n).foldl (fun total i => total + tags.getD i 0) 0
    let threshold := total * quantile
    let cumsum : ℚ := 0
    if from_end = true then
      Except.ok (some (quantileScan positions tags threshold (positions.getD 0 0)
        (List.range n).reverse cumsum))
    else
      Except.ok (some (quantileScan positions tags threshold (positions.getD (n - 1) 0)
        (List.range n) cumsum))

/-! ## calculateClusterQuantilesCpp -/

/-- The three columns `q_0.1`, `q_0.9`, `interquantile_width` of the returned
data frame; an entry is `NA_INTEGER` or an integer. -/
structure ClusterQuantiles where
  q01 : List (Option Int)
  q09 : List (Option Int)
  iq_width : List (Option Int)

/-- The expression `q09[c] - q01[c] + 1` (line 228).  The source evaluates it
on C ints; on the only path that reaches line 228 both operands were
returned for a slice of size at least one and are positions.  A null operand
gives a null result here. -/
def interquantileWidth (q09 q01 : Option Int) : Option Int :=
  match q09, q01 with
  | some hi, some lo => some (hi - lo + 1)
  | _, _ => NA_INTEGER

/-- One iteration of the loop over clusters (lines 204-229): the three
columns after the iteration for cluster `c`.  The literal `0.1` of lines
226-227 is the rational `1 / 10`. -/
def clusterIteration (positions : List Int) (tags : List ℚ)
    (cluster_starts cluster_ends : List Int) (out : ClusterQuantiles) (c : Nat) :
    Except String ClusterQuantiles :=
  let start_idx : Int := cluster_starts.getD c 0 - 1
  let end_idx : Int := cluster_ends.getD c 0 - 1
  if start_idx < 0 ∨ end_idx ≥ (positions.length : Int) ∨ start_idx > end_idx then
    Except.ok
      { q01 := out.q01.set c NA_INTEGER
        q09 := out.q09.set c NA_INTEGER
        iq_width := out.iq_width.set c NA_INTEGER }
  else
    let cluster_size : Int := end_idx - start_idx + 1
    let cluster_pos : List Int :=
      (List.range cluster_size.toNat).map
        (fun (i : Nat) => positions.getD (start_idx + (i : Int)).toNat 0)
    let cluster_tags : List ℚ :=
      (List.range cluster_size.toNat).map
        (fun (i : Nat) => tags.getD (start_idx + (i : Int)).toNat 0)
    match calculateQuantilePositionCpp cluster_pos cluster_tags (1 / 10) false with
    | Except.error msg => Except.error msg
    | Except.ok lo =>
      match calculateQuantilePositionCpp cluster_pos cluster_tags (1 / 10) true with
      | Except.error msg => Except.error msg
      | Except.ok hi =>
        Except.ok
          { q01 := out.q01.set c lo
            q09 := out.q09.set c hi
            iq_width := out.iq_width.set c (interquantileWidth hi lo) }

/-- The loop `for(int c = 0; c < n_clusters; c++)` over a list of cluster
indices; an error raised in an iteration ends the loop. -/
def clusterLoop (positions : List Int) (tags : List ℚ) (cluster_starts cluster_ends : List Int) :
    List Nat → ClusterQuantiles → Except String ClusterQuantiles
  | [], out => Except.ok out
  | c :: rest, out =>
    match clusterIteration positions tags cluster_starts cluster_ends out c with
    | Except.error msg => Except.error msg
    | Except.ok out1 => clusterLoop positions tags cluster_starts cluster_ends rest out1

/-- Embedding of `calculateClusterQuantilesCpp` (lines 194-236).  The three
columns are created with `n_clusters` zero entries. -/
def calculateClusterQuantilesCpp (positions : List Int) (tags : List ℚ)
    (cluster_starts cluster_ends : List Int) : Except String ClusterQuantiles :=
  let n_clusters := cluster_starts.length
  let out : ClusterQuantiles :=
    { q01 := List.replicate n_clusters (some 0)
      q09 := List.replicate n_clusters (some 0)
      iq_width := List.replicate n_clusters (some 0) }
  clusterLoop positions tags cluster_starts cluster_ends (List.range n_clusters) out

/-- Spec-side: the running sum at the sample with index `k`, in scan order:
the sum of tags `0..k` when scanning forward, of tags `k..n-1` when scanning
from the end. -/
def runningSum (tags : List ℚ) (from_end : Bool) (k : Nat) : ℚ :=
  if from_end = true then (tags.drop k).sum else (tags.take (k + 1)).sum

/-- Spec-side: index `j` is scanned before index `k`. -/
def ScannedBefore (from_end : Bool) (j k : Nat) : Prop :=
  if from_end = true then k < j else j < k

/-- Spec-side: the index of the last sample in scan order of a slice of
`n` samples. -/
def lastScanned (from_end : Bool) (n : Nat) : Nat :=
  if from_end = true then 0 else n - 1

/-- Spec-side: cluster bounds `start`, `end` are valid 1-based bounds for a
signal of `N` samples. -/
def ValidBounds (N : Nat) (start_c end_c : Int) : Prop :=
  1 ≤ start_c ∧ start_c ≤ end_c ∧ end_c ≤ (N : Int)

/-- Spec-side: the samples at 0-based indices `start_c - 1 .. end_c - 1`. -/
def sliceOf {α : Type} (v : List α) (start_c end_c : Int) : List α :=
  (v.drop (start_c - 1).toNat).take (end_c - start_c + 1).toNat

/-! ## calculateQuantilePositionCpp in double arithmetic -/

/-- The integer nearest to `a / b`, a tie going to the even neighbour. -/
def roundHalfEven (a b : Nat) : Nat :=
  if 2 * (a % b) < b then a / b
  else if b < 2 * (a % b) then a / b + 1
  else if (a / b) % 2 = 0 then a / b else a / b + 1

/-- The scan's update condition at index `j`, read against sample `i`. -/
def Beats (tags : List ℚ) (i j : Nat) : Prop :=
  tags.getD j 0 > tags.getD i 0 ∨ (tags.getD j 0 = tags.getD i 0 ∧ j < i)

/-- The condition under which `filterPass` for peak `p` clears entry `i`. -/
def passClears (positions : List Int) (tags : List ℚ) (peakDistance : Int)
    (localThreshold : ℚ) (strand : String) (p i : Nat) : Prop :=
  (positions.getD i 0 ≥ (filterRegion strand (positions.getD p 0) peakDistance).1 ∧
    positions.getD i 0 ≤ (filterRegion strand (positions.getD p 0) peakDistance).2) ∧
  (tags.getD i 0 < tags.getD p 0 * localThreshold ∧ i ≠ p)

instance (positions : List Int) (tags : List ℚ) (peakDistance : Int)
    (localThreshold : ℚ) (strand : String) (p : Nat) :
    DecidablePred (passClears positions tags peakDistance localThreshold strand p) :=
  fun i => by unfold passClears; exact inferInstance

/-- The value returned by `calculateQuantilePositionCpp`, which has no
failing path. -/
def quantileValue (positions : List Int) (tags : List ℚ) (quantile : ℚ) (from_end : Bool) :
    Option Int :=
  match calculateQuantilePositionCpp positions tags quantile from_end with
  | Except.ok v => v
  | Except.error _ => NA_INTEGER

/-- The three entries that `clusterIteration` writes for a cluster with
1-based bounds `start_c`, `end_c`. -/
def clusterEntry (positions : List Int) (tags : List ℚ) (start_c end_c : Int) :
    Option Int × Option Int × Option Int :=
  if start_c - 1 < 0 ∨ end_c - 1 ≥ (positions.length : Int) ∨ start_c - 1 > end_c - 1 then
    (NA_INTEGER, NA_INTEGER, NA_INTEGER)
  else
    (quantileValue
        ((List.range (end_c - 1 - (start_c - 1) + 1).toNat).map
          (fun (i : Nat) => positions.getD (start_c - 1 + (i : Int)).toNat 0))
        ((List.range (end_c - 1 - (start_c - 1) + 1).toNat).map
          (fun (i : Nat) => tags.getD (start_c - 1 + (i : Int)).toNat 0))
        (1 / 10) false,
      quantileValue
        ((List.range (end_c - 1 - (start_c - 1) + 1).toNat).map
          (fun (i : Nat) => positions.getD (start_c - 1 + (i : Int)).toNat 0))
        ((List.range (end_c - 1 - (start_c - 1) + 1).toNat).map
          (fun (i : Nat) => tags.getD (start_c - 1 + (i : Int)).toNat 0))
        (1 / 10) true,
      interquantileWidth
        (quantileValue
          ((List.range (end_c - 1 - (start_c - 1) + 1).toNat).map
            (fun (i : Nat) => positions.getD (start_c - 1 + (i : Int)).toNat 0))
          ((List.range (end_c - 1 - (start_c - 1) + 1).toNat).map
            (fun (i : Nat) => tags.getD (start_c - 1 + (i : Int)).toNat 0))
          (1 / 10) true)
        (quantileValue
          ((List.range (end_c - 1 - (start_c - 1) + 1).toNat).map
            (fun (i : Nat) => positions.getD (start_c - 1 + (i : Int)).toNat 0))
          ((List.range (end_c - 1 - (start_c - 1) + 1).toNat).map
            (fun (i : Nat) => tags.getD (start_c - 1 + (i : Int)).toNat 0))
          (1 / 10) false))

/-! ## Loops that write one entry of a vector per iteration -/

theorem foldl_set_length {α : Type} (c : Nat → Prop) [DecidablePred c] (v : Nat → α)
    (l : List Nat) (init : List α) :
    (l.foldl (fun acc i => if c i then acc.set i (v i) else acc) init).length = init.length := by
  induction l generalizing init with
  | nil => rfl
  | cons a l ih =>
    simp only [List.foldl_cons]
    rw [ih]
    split <;> simp

theorem foldl_set_getElem? {α : Type} (c : Nat → Prop) [DecidablePred c] (v : Nat → α)
    (l : List Nat) (init : List α) (k : Nat) (hk : k < init.length) :
    (l.foldl (fun acc i => if c i then acc.set i (v i) else acc) init)[k]? =
      if k ∈ l ∧ c k then some (v k) else init[k]? := by
  induction l generalizing init with
  | nil => simp
  | cons a l ih =>
    simp only [List.foldl_cons]
    rw [ih]
    · by_cases hc : c a
      · simp only [hc, if_true, List.mem_cons]
        by_cases hak : a = k
        · subst hak
          simp [hc, hk]
        · have hka : ¬ k = a := fun h => hak h.symm
          simp [List.getElem?_set, hak, hka]
      · simp only [hc, if_false, List.mem_cons]
        by_cases hak : k = a
        · subst hak
          simp [hc]
        · simp [hak]
    · split <;> simp [hk]

/-! ## The window scan -/

theorem scan_invariant (tags : List ℚ) (left i : Nat) (k : Nat) :
    let st := (List.range' left k).foldl (scanStep tags)
      { max_tag := tags.getD i 0, max_idx := i, is_peak := true }
    (st.is_peak = true → st.max_tag = tags.getD i 0 ∧ st.max_idx = i ∧
        ∀ j, left ≤ j → j < left + k → ¬ Beats tags i j) ∧
    (st.is_peak = false → tags.getD i 0 ≤ st.max_tag ∧ st.max_idx < left + k ∧
        st.max_idx ≠ i ∧ ∃ j, left ≤ j ∧ j < left + k ∧ Beats tags i j) := by
  induction k with
  | zero =>
    simp only [List.range'_zero, List.foldl_nil, Nat.add_zero, true_and, and_true]
    exact ⟨fun _ j h1 h2 => absurd h1 (by omega), fun h => by simp at h⟩
  | succ k ih =>
    rw [List.range'_concat, List.foldl_append]
    simp only [List.foldl_cons, List.foldl_nil, Nat.one_mul]
    generalize (List.range' left k).foldl (scanStep tags)
      { max_tag := tags.getD i 0, max_idx := i, is_peak := true } = st at ih
    obtain ⟨ihT, ihF⟩ := ih
    cases hp : st.is_peak with
    | true =>
      obtain ⟨hmt, hmi, hall⟩ := ihT hp
      by_cases hupd : tags.getD (left + k) 0 > st.max_tag ∨
          (tags.getD (left + k) 0 = st.max_tag ∧ left + k < st.max_idx)
      · have hb : Beats tags i (left + k) := by
          unfold Beats
          rw [hmt, hmi] at hupd
          exact hupd
        have hne : left + k ≠ i := by
          intro h
          rw [h] at hb
          unfold Beats at hb
          rcases hb with h1 | ⟨_, h2⟩
          · exact lt_irrefl _ h1
          · exact lt_irrefl _ h2
        simp only [scanStep, hupd, if_true]
        refine ⟨fun h => by simp at h, fun _ => ⟨?_, by omega, hne, left + k, by omega, by omega, hb⟩⟩
        rcases hb with h1 | ⟨h1, _⟩
        · exact le_of_lt h1
        · exact le_of_eq h1.symm
      · simp only [scanStep, hupd, if_false]
        refine ⟨fun _ => ⟨hmt, hmi, ?_⟩, fun h => by rw [hp] at h; simp at h⟩
        intro j hj1 hj2
        by_cases hjk : j = left + k
        · subst hjk
          unfold Beats
          rw [hmt, hmi] at hupd
          exact hupd
        · exact hall j hj1 (by omega)
    | false =>
      obtain ⟨hle, hlt, hne, j0, hj0a, hj0b, hj0c⟩ := ihF hp
      by_cases hupd : tags.getD (left + k) 0 > st.max_tag ∨
          (tags.getD (left + k) 0 = st.max_tag ∧ left + k < st.max_idx)
      · simp only [scanStep, hupd, if_true]
        have hne2 : left + k ≠ i := by
          intro h
          rw [h] at hupd
          rcases hupd with h1 | ⟨_, h2⟩
          · exact absurd (lt_of_le_of_lt hle h1) (lt_irrefl _)
          · omega
        refine ⟨fun h => by simp at h, fun _ => ⟨?_, by omega, hne2, j0, hj0a, by omega, hj0c⟩⟩
        rcases hupd with h1 | ⟨h1, _⟩
        · exact le_of_lt (lt_of_le_of_lt hle h1)
        · rw [h1]; exact hle
      · simp only [scanStep, hupd, if_false]
        refine ⟨fun h => by rw [hp] at h; simp at h, fun _ => ⟨hle, by omega, hne, j0, hj0a, by omega, hj0c⟩⟩

theorem not_beats_iff (tags : List ℚ) (i j : Nat) :
    ¬ Beats tags i j ↔
      ((j < i → tags.getD j 0 < tags.getD i 0) ∧ (i < j → tags.getD j 0 ≤ tags.getD i 0)) := by
  unfold Beats
  constructor
  · intro h
    push_neg at h
    obtain ⟨h1, h2⟩ := h
    refine ⟨fun hji => ?_, fun _ => h1⟩
    rcases lt_or_eq_of_le h1 with h3 | h3
    · exact h3
    · exact absurd hji (not_lt.mpr (h2 h3))
  · rintro ⟨h1, h2⟩ h
    rcases h with h3 | ⟨h3, h4⟩
    · rcases lt_trichotomy j i with h5 | h5 | h5
      · exact absurd (h1 h5) (not_lt.mpr (le_of_lt h3))
      · rw [h5] at h3; exact lt_irrefl _ h3
      · exact absurd h3 (not_lt.mpr (h2 h5))
    · exact absurd (h1 h4) (by rw [h3]; exact lt_irrefl _)

theorem scanWindow_winner (tags : List ℚ) (left right i : Nat) :
    ((scanWindow tags left right i).is_peak = true ∨ i = (scanWindow tags left right i).max_idx) ↔
      IsWindowWinner tags left right i := by
  have h := scan_invariant tags left i (right + 1 - left)
  simp only at h
  unfold scanWindow IsWindowWinner
  generalize (List.range' left (right + 1 - left)).foldl (scanStep tags)
    { max_tag := tags.getD i 0, max_idx := i, is_peak := true } = st at h
  obtain ⟨hT, hF⟩ := h
  cases hp : st.is_peak with
  | true =>
    obtain ⟨_, _, hall⟩ := hT hp
    simp only [true_or, true_iff]
    intro j hj1 hj2
    exact (not_beats_iff tags i j).mp (hall j hj1 (by omega))
  | false =>
    obtain ⟨_, _, hne, j0, hj0a, hj0b, hj0c⟩ := hF hp
    constructor
    · rintro (h | h)
      · simp at h
      · exact absurd h.symm hne
    · intro hw
      exact absurd ((not_beats_iff tags i j0).mpr (hw j0 hj0a (by omega))) (not_not.mpr hj0c)

/-! ## findPeaksCpp: results -/

theorem peakIteration_fold_length (positions : List Int) (tags : List ℚ) (peakDistance : Int)
    (n : Nat) (l : List Nat) (init : List Int) :
    (l.foldl (peakIteration positions tags peakDistance n) init).length = init.length :=
  foldl_set_length
    (fun i => (scanWindow tags (windowLeft positions peakDistance i)
        (windowRight positions peakDistance n i) i).is_peak = true ∨
      i = (scanWindow tags (windowLeft positions peakDistance i)
        (windowRight positions peakDistance n i) i).max_idx)
    (fun i => (i : Int) + 1) l init

theorem peakIteration_fold_getElem? (positions : List Int) (tags : List ℚ) (peakDistance : Int)
    (n : Nat) (l : List Nat) (init : List Int) (k : Nat) (hk : k < init.length) :
    (l.foldl (peakIteration positions tags peakDistance n) init)[k]? =
      if k ∈ l ∧ ((scanWindow tags (windowLeft positions peakDistance k)
          (windowRight positions peakDistance n k) k).is_peak = true ∨
        k = (scanWindow tags (windowLeft positions peakDistance k)
          (windowRight positions peakDistance n k) k).max_idx)
      then some ((k : Int) + 1) else init[k]? :=
  foldl_set_getElem?
    (fun i => (scanWindow tags (windowLeft positions peakDistance i)
        (windowRight positions peakDistance n i) i).is_peak = true ∨
      i = (scanWindow tags (windowLeft positions peakDistance i)
        (windowRight positions peakDistance n i) i).max_idx)
    (fun i => (i : Int) + 1) l init k hk

theorem findPeaksCpp_ok (positions : List Int) (tags : List ℚ) (peakDistance : Int)
    (hlen : positions.length = tags.length) (hpd : 0 < peakDistance) :
    findPeaksCpp positions tags peakDistance =
      Except.ok ((List.range positions.length).foldl
        (peakIteration positions tags peakDistance positions.length)
        (List.replicate positions.length 0)) := by
  simp only [findPeaksCpp]
  by_cases hn : positions.length = 0
  · rw [if_pos hn]
    simp [hn]
  · rw [if_neg hn, if_neg (not_not.mpr hlen), if_neg (not_le.mpr hpd)]

/-- C1. For positions and tags of equal length N and peakDistance > 0,
`findPeaksCpp` returns a vector of length N whose entry `i` is `i+1` when `i`
is the winning index of its own window `[left_i, right_i]` (every earlier
index of the window has a strictly smaller tag, every later one a tag that
is not larger), and `0` otherwise. -/
theorem findPeaksCpp_labels_window_winner (positions : List Int) (tags : List ℚ)
    (peakDistance : Int) (hlen : positions.length = tags.length) (hpd : 0 < peakDistance) :
    ∃ peakID, findPeaksCpp positions tags peakDistance = Except.ok peakID ∧
      peakID.length = positions.length ∧
      ∀ i, i < positions.length →
        (IsWindowWinner tags (windowLeft positions peakDistance i)
            (windowRight positions peakDistance positions.length i) i →
          peakID[i]? = some ((i : Int) + 1)) ∧
        (¬ IsWindowWinner tags (windowLeft positions peakDistance i)
            (windowRight positions peakDistance positions.length i) i →
          peakID[i]? = some 0) := by
  refine ⟨_, findPeaksCpp_ok positions tags peakDistance hlen hpd, ?_, ?_⟩
  · rw [peakIteration_fold_length, List.length_replicate]
  · intro i hi
    rw [peakIteration_fold_getElem? _ _ _ _ _ _ i (by simpa using hi)]
    constructor
    · intro hw
      rw [if_pos ⟨List.mem_range.mpr hi, (scanWindow_winner _ _ _ _).mpr hw⟩]
    · intro hw
      rw [if_neg (fun h => hw ((scanWindow_winner _ _ _ _).mp h.2))]
      simp [hi]

/-- Witness for C1 on positions `[0,10,20]`, tags `[3,3,1]`, peakDistance `10`. -/
theorem findPeaksCpp_labels_window_winner_witness :
    ∃ peakID, findPeaksCpp [0, 10, 20] [3, 3, 1] 10 = Except.ok peakID ∧
      peakID.length = [(0 : Int), 10, 20].length ∧
      ∀ i, i < [(0 : Int), 10, 20].length →
        (IsWindowWinner [3, 3, 1] (windowLeft [0, 10, 20] 10 i)
            (windowRight [0, 10, 20] 10 [(0 : Int), 10, 20].length i) i →
          peakID[i]? = some ((i : Int) + 1)) ∧
        (¬ IsWindowWinner [3, 3, 1] (windowLeft [0, 10, 20] 10 i)
            (windowRight [0, 10, 20] 10 [(0 : Int), 10, 20].length i) i →
          peakID[i]? = some 0) :=
  findPeaksCpp_labels_window_winner [0, 10, 20] [3, 3, 1] 10 rfl (by decide)

/-- C10. On positions `[0,10,20,30,40]`, tags `[1,5,2,8,1]` and peakDistance
`15`, `findPeaksCpp` returns exactly `[0,2,0,4,0]`: the sample at position 30
(index 3, tag 8) carries label 4. -/
theorem findPeaksCpp_scenario :
    findPeaksCpp [0, 10, 20, 30, 40] [1, 5, 2, 8, 1] 15 = Except.ok [0, 2, 0, 4, 0] ∧
      ([0, 10, 20, 30, 40] : List Int)[3]? = some 30 ∧ ([1, 5, 2, 8, 1] : List ℚ)[3]? = some 8 ∧
      ([0, 2, 0, 4, 0] : List Int)[3]? = some 4 :=
  ⟨rfl, rfl, rfl, rfl⟩

/-- C2, as stated, fails: with empty positions the early return at line 22
precedes the validation, so mismatched lengths and a non-positive
peakDistance are both accepted and the empty vector is returned. -/
theorem findPeaksCpp_empty_skips_validation :
    ([] : List Int).length ≠ [(1 : ℚ)].length ∧ (0 : Int) ≤ 0 ∧
      findPeaksCpp [] [1] 0 = Except.ok [] ∧
      ¬ ∃ msg, findPeaksCpp [] [1] 0 = Except.error msg :=
  ⟨by decide, le_refl 0, rfl, fun ⟨_, h⟩ => by cases h⟩

/-- C2 (amended). With empty positions `findPeaksCpp` returns the empty
vector whatever tags and peakDistance are.  With non-empty positions it
fails with an error, producing no result, whenever the lengths differ or
peakDistance <= 0, and returns a label vector in every other case. -/
theorem findPeaksCpp_validation (positions : List Int) (tags : List ℚ) (peakDistance : Int) :
    (positions = [] → findPeaksCpp positions tags peakDistance = Except.ok []) ∧
    (positions ≠ [] →
      ((positions.length ≠ tags.length ∨ peakDistance ≤ 0) →
        ∃ msg, findPeaksCpp positions tags peakDistance = Except.error msg) ∧
      (¬ (positions.length ≠ tags.length ∨ peakDistance ≤ 0) →
        ∃ peakID, findPeaksCpp positions tags peakDistance = Except.ok peakID)) := by
  refine ⟨fun h => by subst h; rfl, fun hne => ?_⟩
  have hn : positions.length ≠ 0 := fun h => hne (List.length_eq_zero.mp h)
  constructor
  · intro h
    simp only [findPeaksCpp]
    by_cases hlen : positions.length = tags.length
    · have hpd : peakDistance ≤ 0 := h.resolve_left (fun h2 => h2 hlen)
      exact ⟨_, by rw [if_neg hn, if_neg (not_not.mpr hlen), if_pos hpd]⟩
    · exact ⟨_, by rw [if_neg hn, if_pos hlen]⟩
  · intro h
    push_neg at h
    exact ⟨_, findPeaksCpp_ok positions tags peakDistance h.1 h.2⟩

/-- Witness for the amended C2 on positions `[0,10]`, tags `[1]`,
peakDistance `5`: non-empty positions with mismatched lengths fail. -/
theorem findPeaksCpp_validation_witness :
    ([0, 10] : List Int) ≠ [] ∧ ([0, 10] : List Int).length ≠ [(1 : ℚ)].length ∧
      ∃ msg, findPeaksCpp [0, 10] [1] 5 = Except.error msg :=
  ⟨by decide, by decide,
    ((findPeaksCpp_validation [0, 10] [1] 5).2 (by decide)).1 (Or.inl (by decide))⟩

/-! ## localFilterCpp: results -/

theorem filterPass_eq (positions : List Int) (tags : List ℚ) (peakDistance : Int)
    (localThreshold : ℚ) (strand : String) (n : Nat) (keep : List Bool) (p : Nat) :
    filterPass positions tags peakDistance localThreshold strand n keep p =
      (List.range n).foldl
        (fun acc i =>
          if passClears positions tags peakDistance localThreshold strand p i
          then acc.set i false else acc) keep := by
  simp only [filterPass]
  congr 1
  funext acc i
  by_cases h1 : positions.getD i 0 ≥ (filterRegion strand (positions.getD p 0) peakDistance).1 ∧
      positions.getD i 0 ≤ (filterRegion strand (positions.getD p 0) peakDistance).2
  · by_cases h2 : tags.getD i 0 < tags.getD p 0 * localThreshold ∧ i ≠ p
    · simp only [if_pos h1, if_pos h2]
      rw [if_pos (show passClears _ _ _ _ _ p i from ⟨h1, h2⟩)]
    · simp only [if_pos h1, if_neg h2]
      rw [if_neg (show ¬ passClears _ _ _ _ _ p i from fun h => h2 h.2)]
  · simp only [if_neg h1]
    rw [if_neg (show ¬ passClears _ _ _ _ _ p i from fun h => h1 h.1)]

theorem filterPass_length (positions : List Int) (tags : List ℚ) (peakDistance : Int)
    (localThreshold : ℚ) (strand : String) (n : Nat) (keep : List Bool) (p : Nat) :
    (filterPass positions tags peakDistance localThreshold strand n keep p).length =
      keep.length := by
  rw [filterPass_eq, foldl_set_length]

theorem filterPass_getElem? (positions : List Int) (tags : List ℚ) (peakDistance : Int)
    (localThreshold : ℚ) (strand : String) (n : Nat) (keep : List Bool) (p k : Nat)
    (hk : k < keep.length) (hkn : k < n) :
    (filterPass positions tags peakDistance localThreshold strand n keep p)[k]? =
      if passClears positions tags peakDistance localThreshold strand p k
      then some false else keep[k]? := by
  rw [filterPass_eq, foldl_set_getElem? _ _ _ _ k hk]
  by_cases h : passClears positions tags peakDistance localThreshold strand p k
  · rw [if_pos h, if_pos ⟨List.mem_range.mpr hkn, h⟩]
  · rw [if_neg h, if_neg (fun h2 => h h2.2)]

theorem filterPasses_length (positions : List Int) (tags : List ℚ) (peakDistance : Int)
    (localThreshold : ℚ) (strand : String) (n : Nat) (ps : List Nat) (keep : List Bool) :
    (ps.foldl (filterPass positions tags peakDistance localThreshold strand n) keep).length =
      keep.length := by
  induction ps generalizing keep with
  | nil => rfl
  | cons p ps ih => rw [List.foldl_cons, ih, filterPass_length]

theorem filterPasses_false_iff (positions : List Int) (tags : List ℚ) (peakDistance : Int)
    (localThreshold : ℚ) (strand : String) (n : Nat) (ps : List Nat) (keep : List Bool)
    (k : Nat) (hk : k < keep.length) (hkn : k < n) :
    (ps.foldl (filterPass positions tags peakDistance localThreshold strand n) keep)[k]? =
        some false ↔
      (keep[k]? = some false ∨
        ∃ p, p ∈ ps ∧ passClears positions tags peakDistance localThreshold strand p k) := by
  induction ps generalizing keep with
  | nil => simp
  | cons p ps ih =>
    rw [List.foldl_cons, ih _ (by rw [filterPass_length]; exact hk),
      filterPass_getElem? _ _ _ _ _ _ _ _ _ hk hkn]
    by_cases h : passClears positions tags peakDistance localThreshold strand p k
    · rw [if_pos h]
      simp only [true_or, true_iff]
      exact Or.inr ⟨p, List.mem_cons_self _ _, h⟩
    · rw [if_neg h]
      constructor
      · rintro (h1 | ⟨q, hq, hc⟩)
        · exact Or.inl h1
        · exact Or.inr ⟨q, List.mem_cons_of_mem _ hq, hc⟩
      · rintro (h1 | ⟨q, hq, hc⟩)
        · exact Or.inl h1
        · rcases List.mem_cons.mp hq with hqp | hqp
          · subst hqp
            exact absurd hc h
          · exact Or.inr ⟨q, hqp, hc⟩

theorem localFilterCpp_ok (positions : List Int) (tags : List ℚ) (peakIndices : List Int)
    (peakDistance : Int) (localThreshold : ℚ) (strand : String) :
    localFilterCpp positions tags peakIndices peakDistance localThreshold strand =
      Except.ok
        (((List.range positions.length).filter
            (fun i => decide (peakIndices.getD i 0 > 0))).foldl
          (filterPass positions tags peakDistance localThreshold strand positions.length)
          (List.replicate positions.length true)) := by
  simp only [localFilterCpp]
  by_cases hn : positions.length = 0
  · rw [if_pos hn]
    simp [hn]
  · rw [if_neg hn]

/-- C9. For every strand string `s` other than `"+"` (unrecognised strings and
the empty string included) `localFilterCpp` returns, without error, exactly
the mask it returns for strand `"-"`. -/
theorem localFilterCpp_strand_not_plus (positions : List Int) (tags : List ℚ)
    (peakLabels : List Int) (peakDistance : Int) (localThreshold : ℚ) (s : String)
    (hs : s ≠ "+") :
    ∃ keep, localFilterCpp positions tags peakLabels peakDistance localThreshold s =
        Except.ok keep ∧
      localFilterCpp positions tags peakLabels peakDistance localThreshold "-" =
        Except.ok keep := by
  have hreg : ∀ peak_pos, filterRegion s peak_pos peakDistance =
      filterRegion "-" peak_pos peakDistance := by
    intro peak_pos
    unfold filterRegion
    rw [if_neg hs, if_neg (by decide)]
  have hpass : filterPass positions tags peakDistance localThreshold s positions.length =
      filterPass positions tags peakDistance localThreshold "-" positions.length := by
    funext keep p
    simp only [filterPass, hreg]
  refine ⟨_, localFilterCpp_ok _ _ _ _ _ _, ?_⟩
  rw [localFilterCpp_ok, hpass]

/-- Witness for C9 on the empty strand string. -/
theorem localFilterCpp_strand_not_plus_witness :
    ∃ keep, localFilterCpp [0, 5, 10] [1, 9, 4] [0, 2, 3] 6 (1 / 2) "" = Except.ok keep ∧
      localFilterCpp [0, 5, 10] [1, 9, 4] [0, 2, 3] 6 (1 / 2) "-" = Except.ok keep :=
  localFilterCpp_strand_not_plus [0, 5, 10] [1, 9, 4] [0, 2, 3] 6 (1 / 2) "" (by decide)

/-! ## calculateQuantilePositionCpp: results -/

theorem range_map_getD {α : Type} (v : List α) (d : α) :
    (List.range v.length).map (fun i => v.getD i d) = v := by
  apply List.ext_getElem
  · simp
  · intro n h1 h2
    simp [List.getD_eq_getElem?_getD, h2]

theorem foldl_add_eq_sum (f : Nat → ℚ) (l : List Nat) (c : ℚ) :
    l.foldl (fun total i => total + f i) c = c + (l.map f).sum := by
  induction l generalizing c with
  | nil => simp
  | cons a l ih =>
    rw [List.foldl_cons, ih, List.map_cons, List.sum_cons, add_assoc]

theorem total_eq_sum (tags : List ℚ) :
    (List.range tags.length).foldl (fun total i => total + tags.getD i 0) 0 = tags.sum := by
  rw [foldl_add_eq_sum, range_map_getD, zero_add]

/-- The scan falls through to `fallback` when no running sum exceeds the threshold. -/
theorem quantileScan_fallback (positions : List Int) (tags : List ℚ) (threshold : ℚ)
    (fallback : Int) (l : List Nat) (c : ℚ)
    (h : ∀ m, m < l.length →
      ¬ c + ((l.take (m + 1)).map (fun i => tags.getD i 0)).sum > threshold) :
    quantileScan positions tags threshold fallback l c = fallback := by
  induction l generalizing c with
  | nil => rfl
  | cons i rest ih =>
    have h0 := h 0 (by simp)
    simp only [List.take_succ_cons, List.take_zero, List.map_cons, List.map_nil, List.sum_cons,
      List.sum_nil, add_zero] at h0
    rw [quantileScan, if_neg h0]
    apply ih
    intro m hm
    have hm1 := h (m + 1) (by simpa using hm)
    simp only [List.take_succ_cons, List.map_cons, List.sum_cons] at hm1
    rw [add_assoc]
    exact hm1

/-- The scan returns the position at the first place of the scan order whose
running sum exceeds the threshold. -/
theorem quantileScan_hit (positions : List Int) (tags : List ℚ) (threshold : ℚ)
    (fallback : Int) (l : List Nat) (c : ℚ) (m : Nat) (hm : m < l.length)
    (hex : c + ((l.take (m + 1)).map (fun i => tags.getD i 0)).sum > threshold)
    (hfirst : ∀ j, j < m →
      ¬ c + ((l.take (j + 1)).map (fun i => tags.getD i 0)).sum > threshold) :
    quantileScan positions tags threshold fallback l c = positions.getD (l.getD m 0) 0 := by
  induction l generalizing c m with
  | nil => simp at hm
  | cons i rest ih =>
    cases m with
    | zero =>
      simp only [List.take_succ_cons, List.take_zero, List.map_cons, List.map_nil, List.sum_cons,
        List.sum_nil, add_zero, zero_add] at hex
      rw [quantileScan, if_pos hex]
      simp
    | succ m =>
      have h0 := hfirst 0 (by omega)
      simp only [List.take_succ_cons, List.take_zero, List.map_cons, List.map_nil, List.sum_cons,
        List.sum_nil, add_zero, zero_add] at h0
      rw [quantileScan, if_neg h0]
      have hm2 : m < rest.length := by simpa using hm
      rw [ih (c + tags.getD i 0) m hm2]
      · simp
      · simp only [List.take_succ_cons, List.map_cons, List.sum_cons] at hex
        rw [add_assoc]
        exact hex
      · intro j hj
        have hj1 := hfirst (j + 1) (by omega)
        simp only [List.take_succ_cons, List.map_cons, List.sum_cons] at hj1
        rw [add_assoc]
        exact hj1

theorem forward_running_sum (tags : List ℚ) (m : Nat) :
    (((List.range tags.length).take (m + 1)).map (fun i => tags.getD i 0)).sum =
      runningSum tags false m := by
  rw [List.map_take, range_map_getD]
  simp [runningSum]

theorem backward_running_sum (tags : List ℚ) (m : Nat) (hm : m < tags.length) :
    (((List.range tags.length).reverse.take (m + 1)).map (fun i => tags.getD i 0)).sum =
      runningSum tags true (tags.length - 1 - m) := by
  rw [List.map_take, List.map_reverse, range_map_getD, List.take_reverse, List.sum_reverse]
  simp only [runningSum, if_true]
  congr 2
  omega

theorem reverse_range_getD (n m : Nat) (hm : m < n) :
    (List.range n).reverse.getD m 0 = n - 1 - m := by
  rw [List.getD_eq_getElem _ _ (by simpa using hm)]
  simp [List.getElem_reverse]

theorem range_getD (n m : Nat) (hm : m < n) : (List.range n).getD m 0 = m := by
  rw [List.getD_eq_getElem _ _ (by simpa using hm)]
  simp

theorem calculateQuantilePositionCpp_nonempty (positions : List Int) (tags : List ℚ)
    (quantile : ℚ) (from_end : Bool) (hne : positions ≠ [])
    (hlen : tags.length = positions.length) :
    calculateQuantilePositionCpp positions tags quantile from_end =
      Except.ok (some
        (if from_end = true then
          quantileScan positions tags (tags.sum * quantile) (positions.getD 0 0)
            (List.range tags.length).reverse 0
        else
          quantileScan positions tags (tags.sum * quantile)
            (positions.getD (tags.length - 1) 0) (List.range tags.length) 0)) := by
  have hn : positions.length ≠ 0 := fun h => hne (List.length_eq_zero.mp h)
  simp only [calculateQuantilePositionCpp]
  rw [if_neg hn, ← hlen, total_eq_sum]
  cases from_end <;> simp

theorem quantilePosition_hit (positions : List Int) (tags : List ℚ)
    (quantile : ℚ) (from_end : Bool) (hne : positions ≠ [])
    (hlen : tags.length = positions.length) (k : Nat) (hk : k < positions.length)
    (hex : runningSum tags from_end k > tags.sum * quantile)
    (hfirst : ∀ j, j < positions.length → ScannedBefore from_end j k →
      ¬ runningSum tags from_end j > tags.sum * quantile) :
    calculateQuantilePositionCpp positions tags quantile from_end =
      Except.ok (some (positions.getD k 0)) := by
  rw [calculateQuantilePositionCpp_nonempty positions tags quantile from_end hne hlen]
  rw [← hlen] at hk hfirst
  cases from_end with
  | false =>
    simp only [Bool.false_eq_true, if_false]
    rw [quantileScan_hit positions tags _ _ _ 0 k (by simpa using hk), range_getD _ _ hk]
    · rw [forward_running_sum, zero_add]
      exact hex
    · intro j hj
      rw [forward_running_sum, zero_add]
      exact hfirst j (by omega) (by simpa [ScannedBefore] using hj)
  | true =>
    simp only [if_true]
    have hm : tags.length - 1 - k < tags.length := by omega
    have hkk : tags.length - 1 - (tags.length - 1 - k) = k := by omega
    rw [quantileScan_hit positions tags _ _ _ 0 (tags.length - 1 - k) (by simpa using hm),
      reverse_range_getD _ _ hm, hkk]
    · rw [backward_running_sum _ _ hm, zero_add, hkk]
      exact hex
    · intro j hj
      rw [backward_running_sum _ _ (by omega), zero_add]
      exact hfirst (tags.length - 1 - j) (by omega) (by simp only [ScannedBefore, if_true]; omega)

theorem quantilePosition_fallback (positions : List Int) (tags : List ℚ)
    (quantile : ℚ) (from_end : Bool) (hne : positions ≠ [])
    (hlen : tags.length = positions.length)
    (hnone : ∀ k, k < positions.length → ¬ runningSum tags from_end k > tags.sum * quantile) :
    calculateQuantilePositionCpp positions tags quantile from_end =
      Except.ok (some (positions.getD (lastScanned from_end positions.length) 0)) := by
  rw [calculateQuantilePositionCpp_nonempty positions tags quantile from_end hne hlen]
  rw [← hlen] at hnone
  cases from_end with
  | false =>
    simp only [Bool.false_eq_true, if_false, lastScanned]
    rw [quantileScan_fallback, hlen]
    intro m hm
    rw [forward_running_sum, zero_add]
    exact hnone m (by simpa using hm)
  | true =>
    simp only [if_true, lastScanned]
    rw [quantileScan_fallback]
    intro m hm
    have hm2 : m < tags.length := by simpa using hm
    rw [backward_running_sum _ _ hm2, zero_add]
    exact hnone _ (by omega)

theorem runningSum_le_total (tags : List ℚ) (from_end : Bool) (k : Nat)
    (hnonneg : ∀ t ∈ tags, 0 ≤ t) : runningSum tags from_end k ≤ tags.sum := by
  cases from_end with
  | false =>
    simp only [runningSum, Bool.false_eq_true, if_false]
    have h := List.sum_take_add_sum_drop tags (k + 1)
    have hd : 0 ≤ (tags.drop (k + 1)).sum :=
      List.sum_nonneg (fun x hx => hnonneg x (List.mem_of_mem_drop hx))
    linarith
  | true =>
    simp only [runningSum, if_true]
    have h := List.sum_take_add_sum_drop tags k
    have hd : 0 ≤ (tags.take k).sum :=
      List.sum_nonneg (fun x hx => hnonneg x (List.mem_of_mem_take hx))
    linarith

/-- Exact arithmetic: for a non-empty slice with non-negative tags, every
quantile >= 1 and both directions, `calculateQuantilePositionCpp` returns the
position of the last sample in scan order. -/
theorem calculateQuantilePositionCpp_quantile_ge_one (positions : List Int) (tags : List ℚ)
    (quantile : ℚ) (from_end : Bool) (hne : positions ≠ [])
    (hlen : tags.length = positions.length) (hnonneg : ∀ t ∈ tags, 0 ≤ t)
    (hq : 1 ≤ quantile) :
    calculateQuantilePositionCpp positions tags quantile from_end =
      Except.ok (some (positions.getD (lastScanned from_end positions.length) 0)) := by
  apply quantilePosition_fallback positions tags quantile from_end hne hlen
  intro k _
  have h1 := runningSum_le_total tags from_end k hnonneg
  have h2 : 0 ≤ tags.sum := List.sum_nonneg hnonneg
  have h3 : tags.sum ≤ tags.sum * quantile := le_mul_of_one_le_right h2 hq
  exact not_lt.mpr (le_trans h1 h3)

/-- The exact-arithmetic statement applied to positions `[0,10,20]`, tags
`[1,2,1]`, quantile `1`, scanning forward. -/
theorem calculateQuantilePositionCpp_quantile_ge_one_witness :
    calculateQuantilePositionCpp [0, 10, 20] [1, 2, 1] 1 false =
      Except.ok (some ([(0 : Int), 10, 20].getD (lastScanned false [(0 : Int), 10, 20].length) 0)) :=
  calculateQuantilePositionCpp_quantile_ge_one [0, 10, 20] [1, 2, 1] 1 false (by decide) rfl
    (by simp) (le_refl 1)

/-- C5, as stated, fails: on an empty slice the function returns
`NA_INTEGER` (line 152) and raises no error. -/
theorem calculateQuantilePositionCpp_empty_no_error :
    calculateQuantilePositionCpp [] [] (1 / 10) false = Except.ok NA_INTEGER ∧
      ¬ ∃ msg, calculateQuantilePositionCpp [] [] (1 / 10) false = Except.error msg :=
  ⟨rfl, fun ⟨_, h⟩ => by cases h⟩

/-- C5 (amended). For every quantile and every direction flag, the call on an
empty slice returns the null integer `NA_INTEGER`, which is no position, and
raises no error. -/
theorem calculateQuantilePositionCpp_empty (tags : List ℚ) (quantile : ℚ) (from_end : Bool) :
    calculateQuantilePositionCpp [] tags quantile from_end = Except.ok NA_INTEGER ∧
      ∀ pos : Int, NA_INTEGER ≠ some pos :=
  ⟨rfl, fun _ h => by cases h⟩

/-! ## calculateClusterQuantilesCpp: results -/

theorem foldl_set_all_length {α : Type} (v : Nat → α) (l : List Nat) (init : List α) :
    (l.foldl (fun acc i => acc.set i (v i)) init).length = init.length := by
  simpa using foldl_set_length (fun _ => True) v l init

theorem foldl_set_all_getElem? {α : Type} (v : Nat → α) (n : Nat) (init : List α) (k : Nat)
    (hk : k < init.length) (hkn : k < n) :
    ((List.range n).foldl (fun acc i => acc.set i (v i)) init)[k]? = some (v k) := by
  simpa [hkn] using foldl_set_getElem? (fun _ => True) v (List.range n) init k hk

theorem calculateQuantilePositionCpp_value (positions : List Int) (tags : List ℚ)
    (quantile : ℚ) (from_end : Bool) :
    calculateQuantilePositionCpp positions tags quantile from_end =
      Except.ok (quantileValue positions tags quantile from_end) := by
  unfold quantileValue
  simp only [calculateQuantilePositionCpp]
  by_cases hn : positions.length = 0
  · simp only [hn, if_true]
  · cases from_end <;> simp only [hn, if_false, if_true, Bool.false_eq_true]

theorem clusterIteration_eq (positions : List Int) (tags : List ℚ)
    (cluster_starts cluster_ends : List Int) (out : ClusterQuantiles) (c : Nat) :
    clusterIteration positions tags cluster_starts cluster_ends out c =
      Except.ok
        { q01 := out.q01.set c
            (clusterEntry positions tags (cluster_starts.getD c 0) (cluster_ends.getD c 0)).1
          q09 := out.q09.set c
            (clusterEntry positions tags (cluster_starts.getD c 0) (cluster_ends.getD c 0)).2.1
          iq_width := out.iq_width.set c
            (clusterEntry positions tags (cluster_starts.getD c 0) (cluster_ends.getD c 0)).2.2 } := by
  simp only [clusterIteration, clusterEntry]
  by_cases hg : cluster_starts.getD c 0 - 1 < 0 ∨
      cluster_ends.getD c 0 - 1 ≥ (positions.length : Int) ∨
      cluster_starts.getD c 0 - 1 > cluster_ends.getD c 0 - 1
  · rw [if_pos hg, if_pos hg]
  · rw [if_neg hg, if_neg hg]
    simp only [calculateQuantilePositionCpp_value]

theorem clusterLoop_eq (positions : List Int) (tags : List ℚ)
    (cluster_starts cluster_ends : List Int) (l : List Nat) (out : ClusterQuantiles) :
    clusterLoop positions tags cluster_starts cluster_ends l out =
      Except.ok
        { q01 := l.foldl (fun acc c => acc.set c
            (clusterEntry positions tags (cluster_starts.getD c 0) (cluster_ends.getD c 0)).1)
            out.q01
          q09 := l.foldl (fun acc c => acc.set c
            (clusterEntry positions tags (cluster_starts.getD c 0) (cluster_ends.getD c 0)).2.1)
            out.q09
          iq_width := l.foldl (fun acc c => acc.set c
            (clusterEntry positions tags (cluster_starts.getD c 0) (cluster_ends.getD c 0)).2.2)
            out.iq_width } := by
  induction l generalizing out with
  | nil => rfl
  | cons c rest ih =>
    rw [clusterLoop, clusterIteration_eq]
    simp only [ih, List.foldl_cons]

theorem validBounds_iff (N : Nat) (start_c end_c : Int) :
    ValidBounds N start_c end_c ↔
      ¬ (start_c - 1 < 0 ∨ end_c - 1 ≥ (N : Int) ∨ start_c - 1 > end_c - 1) := by
  unfold ValidBounds
  omega

theorem copy_eq_drop_take {α : Type} (v : List α) (d : α) (a m : Nat) (h : a + m ≤ v.length) :
    (List.range m).map (fun i => v.getD (a + i) d) = (v.drop a).take m := by
  apply List.ext_getElem
  · simp
    omega
  · intro n h1 h2
    have hn : n < m := by simpa using h1
    simp only [List.getElem_map, List.getElem_range, List.getElem_take, List.getElem_drop]
    rw [List.getD_eq_getElem _ _ (by omega)]

theorem clusterCopy_eq_sliceOf {α : Type} (v : List α) (d : α) (start_c end_c : Int)
    (hv : ValidBounds v.length start_c end_c) :
    (List.range (end_c - 1 - (start_c - 1) + 1).toNat).map
        (fun (i : Nat) => v.getD (start_c - 1 + (i : Int)).toNat d) =
      sliceOf v start_c end_c := by
  obtain ⟨h1, h2, h3⟩ := hv
  unfold sliceOf
  have hm : (end_c - 1 - (start_c - 1) + 1).toNat = (end_c - start_c + 1).toNat := by
    congr 1
    omega
  rw [hm, ← copy_eq_drop_take v d _ _ (by omega)]
  apply List.map_congr_left
  intro i _
  congr 1
  omega

theorem sliceOf_length {α : Type} (v : List α) (start_c end_c : Int)
    (hv : ValidBounds v.length start_c end_c) :
    (sliceOf v start_c end_c).length = (end_c - start_c + 1).toNat := by
  obtain ⟨h1, h2, h3⟩ := hv
  unfold sliceOf
  rw [List.length_take, List.length_drop]
  omega

theorem clusterEntry_invalid (positions : List Int) (tags : List ℚ) (start_c end_c : Int)
    (hv : ¬ ValidBounds positions.length start_c end_c) :
    clusterEntry positions tags start_c end_c = (NA_INTEGER, NA_INTEGER, NA_INTEGER) := by
  unfold clusterEntry
  rw [if_pos (not_not.mp (fun h => hv ((validBounds_iff _ _ _).mpr h)))]

theorem clusterEntry_valid (positions : List Int) (tags : List ℚ) (start_c end_c : Int)
    (hlen : tags.length = positions.length)
    (hv : ValidBounds positions.length start_c end_c) :
    ∃ lo hi,
      calculateQuantilePositionCpp (sliceOf positions start_c end_c) (sliceOf tags start_c end_c)
        (1 / 10) false = Except.ok (some lo) ∧
      calculateQuantilePositionCpp (sliceOf positions start_c end_c) (sliceOf tags start_c end_c)
        (1 / 10) true = Except.ok (some hi) ∧
      clusterEntry positions tags start_c end_c = (some lo, some hi, some (hi - lo + 1)) := by
  have hvt : ValidBounds tags.length start_c end_c := by rw [hlen]; exact hv
  have hl1 := sliceOf_length positions start_c end_c hv
  have hl2 := sliceOf_length tags start_c end_c hvt
  have hne : sliceOf positions start_c end_c ≠ [] := by
    intro h
    rw [h] at hl1
    obtain ⟨h1, h2, h3⟩ := hv
    simp only [List.length_nil] at hl1
    omega
  obtain ⟨lo, hlo⟩ : ∃ lo, calculateQuantilePositionCpp (sliceOf positions start_c end_c)
      (sliceOf tags start_c end_c) (1 / 10) false = Except.ok (some lo) :=
    ⟨_, calculateQuantilePositionCpp_nonempty (sliceOf positions start_c end_c)
      (sliceOf tags start_c end_c) (1 / 10) false hne (by rw [hl1, hl2])⟩
  obtain ⟨hi, hhi⟩ : ∃ hi, calculateQuantilePositionCpp (sliceOf positions start_c end_c)
      (sliceOf tags start_c end_c) (1 / 10) true = Except.ok (some hi) :=
    ⟨_, calculateQuantilePositionCpp_nonempty (sliceOf positions start_c end_c)
      (sliceOf tags start_c end_c) (1 / 10) true hne (by rw [hl1, hl2])⟩
  refine ⟨lo, hi, hlo, hhi, ?_⟩
  unfold clusterEntry
  rw [if_neg ((validBounds_iff _ _ _).mp hv), clusterCopy_eq_sliceOf positions 0 start_c end_c hv,
    clusterCopy_eq_sliceOf tags 0 start_c end_c hvt]
  have hvlo : quantileValue (sliceOf positions start_c end_c) (sliceOf tags start_c end_c)
      (1 / 10) false = some lo := by
    unfold quantileValue
    rw [hlo]
  have hvhi : quantileValue (sliceOf positions start_c end_c) (sliceOf tags start_c end_c)
      (1 / 10) true = some hi := by
    unfold quantileValue
    rw [hhi]
  rw [hvlo, hvhi]
  rfl

theorem calculateClusterQuantilesCpp_entries (positions : List Int) (tags : List ℚ)
    (cluster_starts cluster_ends : List Int) :
    ∃ out, calculateClusterQuantilesCpp positions tags cluster_starts cluster_ends =
        Except.ok out ∧
      out.q01.length = cluster_starts.length ∧ out.q09.length = cluster_starts.length ∧
      out.iq_width.length = cluster_starts.length ∧
      ∀ c, c < cluster_starts.length →
        out.q01[c]? = some
          (clusterEntry positions tags (cluster_starts.getD c 0) (cluster_ends.getD c 0)).1 ∧
        out.q09[c]? = some
          (clusterEntry positions tags (cluster_starts.getD c 0) (cluster_ends.getD c 0)).2.1 ∧
        out.iq_width[c]? = some
          (clusterEntry positions tags (cluster_starts.getD c 0) (cluster_ends.getD c 0)).2.2 := by
  refine ⟨_, clusterLoop_eq positions tags cluster_starts cluster_ends _ _, ?_, ?_, ?_, ?_⟩
  · simp only [foldl_set_all_length, List.length_replicate]
  · simp only [foldl_set_all_length, List.length_replicate]
  · simp only [foldl_set_all_length, List.length_replicate]
  · intro c hc
    refine ⟨?_, ?_, ?_⟩ <;>
      exact foldl_set_all_getElem? _ _ _ c (by simpa using hc) hc

/-- C6. For a signal of length N and cluster start/end vectors of equal
length, `calculateClusterQuantilesCpp` returns one entry per cluster; for
every cluster the three outputs are all null when not
`1 <= start <= end <= N` and all non-null otherwise; and the entry of a
cluster is the same in every call on the same signal in which that cluster
has the same bounds, whatever the other clusters (invalid ones included)
are. -/
theorem calculateClusterQuantilesCpp_null_iff_invalid (positions : List Int) (tags : List ℚ)
    (cluster_starts cluster_ends : List Int) (hsig : tags.length = positions.length)
    (_hcl : cluster_ends.length = cluster_starts.length) :
    ∃ out, calculateClusterQuantilesCpp positions tags cluster_starts cluster_ends =
        Except.ok out ∧
      out.q01.length = cluster_starts.length ∧ out.q09.length = cluster_starts.length ∧
      out.iq_width.length = cluster_starts.length ∧
      (∀ c, c < cluster_starts.length →
        (¬ ValidBounds positions.length (cluster_starts.getD c 0) (cluster_ends.getD c 0) →
          out.q01[c]? = some NA_INTEGER ∧ out.q09[c]? = some NA_INTEGER ∧
          out.iq_width[c]? = some NA_INTEGER) ∧
        (ValidBounds positions.length (cluster_starts.getD c 0) (cluster_ends.getD c 0) →
          ∃ lo hi w, out.q01[c]? = some (some lo) ∧ out.q09[c]? = some (some hi) ∧
            out.iq_width[c]? = some (some w))) ∧
      (∀ (starts2 ends2 : List Int) (c c2 : Nat), ends2.length = starts2.length →
        c < cluster_starts.length → c2 < starts2.length →
        starts2.getD c2 0 = cluster_starts.getD c 0 →
        ends2.getD c2 0 = cluster_ends.getD c 0 →
        ∃ out2, calculateClusterQuantilesCpp positions tags starts2 ends2 = Except.ok out2 ∧
          out2.q01[c2]? = out.q01[c]? ∧ out2.q09[c2]? = out.q09[c]? ∧
          out2.iq_width[c2]? = out.iq_width[c]?) := by
  obtain ⟨out, hout, hl1, hl2, hl3, hent⟩ :=
    calculateClusterQuantilesCpp_entries positions tags cluster_starts cluster_ends
  refine ⟨out, hout, hl1, hl2, hl3, ?_, ?_⟩
  · intro c hc
    obtain ⟨h1, h2, h3⟩ := hent c hc
    constructor
    · intro hv
      rw [h1, h2, h3, clusterEntry_invalid positions tags _ _ hv]
      exact ⟨rfl, rfl, rfl⟩
    · intro hv
      obtain ⟨lo, hi, _, _, he⟩ := clusterEntry_valid positions tags _ _ hsig hv
      rw [h1, h2, h3, he]
      exact ⟨lo, hi, hi - lo + 1, rfl, rfl, rfl⟩
  · intro starts2 ends2 c c2 _ hc hc2 hs he
    obtain ⟨out2, hout2, _, _, _, hent2⟩ :=
      calculateClusterQuantilesCpp_entries positions tags starts2 ends2
    obtain ⟨h1, h2, h3⟩ := hent c hc
    obtain ⟨k1, k2, k3⟩ := hent2 c2 hc2
    refine ⟨out2, hout2, ?_, ?_, ?_⟩
    · rw [h1, k1, hs, he]
    · rw [h2, k2, hs, he]
    · rw [h3, k3, hs, he]

/-- Witness for C6: signal `[0,10,20]` / `[1,2,1]` with clusters `(1,2)`
(valid), `(3,2)` (start > end) and `(0,1)` (out of bounds). -/
theorem calculateClusterQuantilesCpp_null_iff_invalid_witness :
    ∃ out, calculateClusterQuantilesCpp [0, 10, 20] [1, 2, 1] [1, 3, 0] [2, 2, 1] =
        Except.ok out ∧
      out.q01.length = [(1 : Int), 3, 0].length ∧ out.q09.length = [(1 : Int), 3, 0].length ∧
      out.iq_width.length = [(1 : Int), 3, 0].length ∧
      (∀ c, c < [(1 : Int), 3, 0].length →
        (¬ ValidBounds [(0 : Int), 10, 20].length ([(1 : Int), 3, 0].getD c 0)
            ([(2 : Int), 2, 1].getD c 0) →
          out.q01[c]? = some NA_INTEGER ∧ out.q09[c]? = some NA_INTEGER ∧
          out.iq_width[c]? = some NA_INTEGER) ∧
        (ValidBounds [(0 : Int), 10, 20].length ([(1 : Int), 3, 0].getD c 0)
            ([(2 : Int), 2, 1].getD c 0) →
          ∃ lo hi w, out.q01[c]? = some (some lo) ∧ out.q09[c]? = some (some hi) ∧
            out.iq_width[c]? = some (some w))) ∧
      (∀ (starts2 ends2 : List Int) (c c2 : Nat), ends2.length = starts2.length →
        c < [(1 : Int), 3, 0].length → c2 < starts2.length →
        starts2.getD c2 0 = [(1 : Int), 3, 0].getD c 0 →
        ends2.getD c2 0 = [(2 : Int), 2, 1].getD c 0 →
        ∃ out2, calculateClusterQuantilesCpp [0, 10, 20] [1, 2, 1] starts2 ends2 =
            Except.ok out2 ∧
          out2.q01[c2]? = out.q01[c]? ∧ out2.q09[c2]? = out.q09[c]? ∧
          out2.iq_width[c2]? = out.iq_width[c]?) :=
  calculateClusterQuantilesCpp_null_iff_invalid [0, 10, 20] [1, 2, 1] [1, 3, 0] [2, 2, 1] rfl rfl

/-- C7. For every cluster `c` with valid 1-based bounds, whatever the other
clusters of the call are, the entry for `c` is
`q_low = calculateQuantilePositionCpp(slice, 0.1, false)`,
`q_high = calculateQuantilePositionCpp(slice, 0.1, true)` and
`width = q_high - q_low + 1`, the slice being the samples at 0-based indices
`start_c - 1 .. end_c - 1`; both calls use the fraction 0.1. -/
theorem calculateClusterQuantilesCpp_valid_entry (positions : List Int) (tags : List ℚ)
    (cluster_starts cluster_ends : List Int) (hsig : tags.length = positions.length)
    (_hcl : cluster_ends.length = cluster_starts.length) :
    ∃ out, calculateClusterQuantilesCpp positions tags cluster_starts cluster_ends =
        Except.ok out ∧
      ∀ c, c < cluster_starts.length →
        ValidBounds positions.length (cluster_starts.getD c 0) (cluster_ends.getD c 0) →
        ∃ lo hi,
          calculateQuantilePositionCpp
              (sliceOf positions (cluster_starts.getD c 0) (cluster_ends.getD c 0))
              (sliceOf tags (cluster_starts.getD c 0) (cluster_ends.getD c 0))
              (1 / 10) false = Except.ok (some lo) ∧
          calculateQuantilePositionCpp
              (sliceOf positions (cluster_starts.getD c 0) (cluster_ends.getD c 0))
              (sliceOf tags (cluster_starts.getD c 0) (cluster_ends.getD c 0))
              (1 / 10) true = Except.ok (some hi) ∧
          out.q01[c]? = some (some lo) ∧ out.q09[c]? = some (some hi) ∧
          out.iq_width[c]? = some (some (hi - lo + 1)) := by
  obtain ⟨out, hout, _, _, _, hent⟩ :=
    calculateClusterQuantilesCpp_entries positions tags cluster_starts cluster_ends
  refine ⟨out, hout, ?_⟩
  intro c hc hv
  obtain ⟨h1, h2, h3⟩ := hent c hc
  obtain ⟨lo, hi, hlo, hhi, he⟩ := clusterEntry_valid positions tags _ _ hsig hv
  rw [h1, h2, h3, he]
  exact ⟨lo, hi, hlo, hhi, rfl, rfl, rfl⟩

/-- Witness for C7: signal `[0,10,20]` / `[1,2,1]` with clusters `(1,2)`,
`(3,2)` and `(0,1)`. -/
theorem calculateClusterQuantilesCpp_valid_entry_witness :
    ∃ out, calculateClusterQuantilesCpp [0, 10, 20] [1, 2, 1] [1, 3, 0] [2, 2, 1] =
        Except.ok out ∧
      ∀ c, c < [(1 : Int), 3, 0].length →
        ValidBounds [(0 : Int), 10, 20].length ([(1 : Int), 3, 0].getD c 0)
          ([(2 : Int), 2, 1].getD c 0) →
        ∃ lo hi,
          calculateQuantilePositionCpp
              (sliceOf [0, 10, 20] ([(1 : Int), 3, 0].getD c 0) ([(2 : Int), 2, 1].getD c 0))
              (sliceOf [1, 2, 1] ([(1 : Int), 3, 0].getD c 0) ([(2 : Int), 2, 1].getD c 0))
              (1 / 10) false = Except.ok (some lo) ∧
          calculateQuantilePositionCpp
              (sliceOf [0, 10, 20] ([(1 : Int), 3, 0].getD c 0) ([(2 : Int), 2, 1].getD c 0))
              (sliceOf [1, 2, 1] ([(1 : Int), 3, 0].getD c 0) ([(2 : Int), 2, 1].getD c 0))
              (1 / 10) true = Except.ok (some hi) ∧
          out.q01[c]? = some (some lo) ∧ out.q09[c]? = some (some hi) ∧
          out.iq_width[c]? = some (some (hi - lo + 1)) :=
  calculateClusterQuantilesCpp_valid_entry [0, 10, 20] [1, 2, 1] [1, 3, 0] [2, 2, 1] rfl rfl

/-! ## Scenarios of the quantile functions -/

/-- C11. On positions `[0,10,20]`, tags `[1,1,1]`, quantile `0.5`, scanning
forward, `calculateQuantilePositionCpp` returns 10: the total is 3, the
threshold 1.5, the running sums are 1, 2, 3 and the first one strictly above
the threshold is at position 10. -/
theorem calculateQuantilePositionCpp_scenario :
    calculateQuantilePositionCpp [0, 10, 20] [1, 1, 1] (1 / 2) false = Except.ok (some 10) ∧
      ([1, 1, 1] : List ℚ).sum = 3 ∧ ([1, 1, 1] : List ℚ).sum * (1 / 2) = 3 / 2 ∧
      runningSum [1, 1, 1] false 0 = 1 ∧ runningSum [1, 1, 1] false 1 = 2 ∧
      runningSum [1, 1, 1] false 2 = 3 ∧
      ¬ runningSum [1, 1, 1] false 0 > ([1, 1, 1] : List ℚ).sum * (1 / 2) ∧
      runningSum [1, 1, 1] false 1 > ([1, 1, 1] : List ℚ).sum * (1 / 2) ∧
      ([0, 10, 20] : List Int).getD 1 0 = 10 := by
  refine ⟨?_, ?_, ?_, ?_, ?_, ?_, ?_, ?_, ?_⟩
  · simp [calculateQuantilePositionCpp, quantileScan, List.range, List.range.loop]
    norm_num
  all_goals norm_num [runningSum]

/-- C16. The interquantile width is not clamped: on positions `[0,10]`
(non-decreasing), tags `[0,0]` (non-negative) and the valid cluster with
start 1 and end 2, `calculateClusterQuantilesCpp` returns `q_low = 10`,
`q_high = 0` and `width = -9`, so `q_high < q_low` and the width is below
zero. -/
theorem calculateClusterQuantilesCpp_negative_width :
    List.Sorted (fun a b : Int => a ≤ b) [0, 10] ∧ (∀ t ∈ ([0, 0] : List ℚ), 0 ≤ t) ∧
      ValidBounds ([0, 10] : List Int).length 1 2 ∧
      ∃ out q_low q_high width,
        calculateClusterQuantilesCpp [0, 10] [0, 0] [1] [2] = Except.ok out ∧
        out.q01 = [some q_low] ∧ out.q09 = [some q_high] ∧ out.iq_width = [some width] ∧
        q_low = 10 ∧ q_high = 0 ∧ width = -9 ∧ q_high < q_low ∧ width < 0 := by
  refine ⟨by decide, by simp, by unfold ValidBounds; decide, ?_⟩
  refine ⟨{ q01 := [some 10], q09 := [some 0], iq_width := [some (-9)] }, 10, 0, -9, ?_,
    rfl, rfl, rfl, rfl, rfl, rfl, by decide, by decide⟩
  simp [calculateClusterQuantilesCpp, clusterLoop, clusterIteration,
    calculateQuantilePositionCpp, quantileScan, List.range, List.range.loop,
    interquantileWidth]

/-! ## The window of a sample -/

theorem expandLeft_le (positions : List Int) (lo : Int) (i : Nat) :
    expandLeft positions lo i ≤ i := by
  induction i with
  | zero => simp [expandLeft]
  | succ k ih =>
    rw [expandLeft]
    split
    · omega
    · exact le_refl _

theorem expandLeft_inside (positions : List Int) (lo : Int) (i : Nat) :
    ∀ j, expandLeft positions lo i ≤ j → j < i → lo ≤ positions.getD j 0 := by
  induction i with
  | zero => intro j _ h; omega
  | succ k ih =>
    intro j h1 h2
    rw [expandLeft] at h1
    split at h1
    · rename_i hk
      by_cases hjk : j = k
      · subst hjk; exact hk
      · exact ih j h1 (by omega)
    · omega

theorem expandLeft_boundary (positions : List Int) (lo : Int) (i : Nat) :
    ∀ l, expandLeft positions lo i = l + 1 → positions.getD l 0 < lo := by
  induction i with
  | zero => intro l h; simp [expandLeft] at h
  | succ k ih =>
    intro l h
    rw [expandLeft] at h
    split at h
    · exact ih l h
    · rename_i hk
      have hl : k = l := by omega
      subst hl
      exact not_le.mp hk

theorem expandRight_ge (positions : List Int) (hi : Int) (gap right : Nat) :
    right ≤ expandRight positions hi gap right := by
  induction gap generalizing right with
  | zero => simp [expandRight]
  | succ g ih =>
    rw [expandRight]
    split
    · exact le_trans (Nat.le_succ right) (ih (right + 1))
    · exact le_refl _

theorem expandRight_le (positions : List Int) (hi : Int) (gap right : Nat) :
    expandRight positions hi gap right ≤ right + gap := by
  induction gap generalizing right with
  | zero => simp [expandRight]
  | succ g ih =>
    rw [expandRight]
    split
    · have := ih (right + 1)
      omega
    · omega

theorem expandRight_inside (positions : List Int) (hi : Int) (gap right : Nat) :
    ∀ j, right < j → j ≤ expandRight positions hi gap right → positions.getD j 0 ≤ hi := by
  induction gap generalizing right with
  | zero =>
    intro j h1 h2
    simp only [expandRight] at h2
    omega
  | succ g ih =>
    intro j h1 h2
    rw [expandRight] at h2
    split at h2
    · rename_i hk
      by_cases hj : j = right + 1
      · subst hj; exact hk
      · exact ih (right + 1) j (by omega) h2
    · omega

theorem expandRight_boundary (positions : List Int) (hi : Int) (gap right : Nat) :
    expandRight positions hi gap right < right + gap →
      hi < positions.getD (expandRight positions hi gap right + 1) 0 := by
  induction gap generalizing right with
  | zero =>
    intro h
    simp only [expandRight] at h
    omega
  | succ g ih =>
    intro h
    rw [expandRight] at h ⊢
    split
    · rename_i hk
      rw [if_pos hk] at h
      exact ih (right + 1) (by omega)
    · rename_i hk
      exact not_le.mp hk

theorem sorted_getD (positions : List Int) (hs : List.Sorted (fun a b : Int => a ≤ b) positions)
    (a b : Nat) (hab : a ≤ b) (hb : b < positions.length) :
    positions.getD a 0 ≤ positions.getD b 0 := by
  rw [List.getD_eq_getElem _ _ (by omega), List.getD_eq_getElem _ _ hb]
  rcases Nat.lt_or_eq_of_le hab with h | h
  · exact (List.pairwise_iff_getElem.mp hs) a b (by omega) hb h
  · subst h
    exact le_refl _

theorem window_bounds (positions : List Int) (peakDistance : Int) (i : Nat)
    (hi : i < positions.length) :
    windowLeft positions peakDistance i ≤ i ∧
      i ≤ windowRight positions peakDistance positions.length i ∧
      windowRight positions peakDistance positions.length i < positions.length := by
  refine ⟨expandLeft_le _ _ _, expandRight_ge _ _ _ _, ?_⟩
  have h := expandRight_le positions (positions.getD i 0 + peakDistance)
    (positions.length - 1 - i) i
  unfold windowRight
  omega

theorem window_iff_within (positions : List Int) (peakDistance : Int)
    (hs : List.Sorted (fun a b : Int => a ≤ b) positions) (hpd : 0 < peakDistance)
    (i : Nat) (hi : i < positions.length) (j : Nat) (hj : j < positions.length) :
    (windowLeft positions peakDistance i ≤ j ∧
        j ≤ windowRight positions peakDistance positions.length i) ↔
      |positions.getD j 0 - positions.getD i 0| ≤ peakDistance := by
  rw [abs_le]
  constructor
  · rintro ⟨h1, h2⟩
    rcases Nat.lt_trichotomy j i with hji | hji | hji
    · have ha := expandLeft_inside positions _ i j h1 hji
      have hb := sorted_getD positions hs j i (by omega) hi
      constructor <;> omega
    · subst hji
      constructor <;> omega
    · have ha := expandRight_inside positions _ _ i j hji h2
      have hb := sorted_getD positions hs i j (by omega) hj
      constructor <;> omega
  · rintro ⟨h1, h2⟩
    constructor
    · by_contra hlt
      have hlt2 : j < windowLeft positions peakDistance i := not_le.mp hlt
      obtain ⟨l, hl⟩ : ∃ l, windowLeft positions peakDistance i = l + 1 :=
        ⟨windowLeft positions peakDistance i - 1, by omega⟩
      have hb := expandLeft_boundary positions _ i l hl
      have hle := expandLeft_le positions (positions.getD i 0 - peakDistance) i
      have hc := sorted_getD positions hs j l (by omega) (by unfold windowLeft at hl; omega)
      omega
    · by_contra hlt
      have hlt2 : windowRight positions peakDistance positions.length i < j := not_le.mp hlt
      have hb := expandRight_boundary positions (positions.getD i 0 + peakDistance)
        (positions.length - 1 - i) i (by unfold windowRight at hlt2; omega)
      have hc := sorted_getD positions hs
        (windowRight positions peakDistance positions.length i + 1) j (by omega) hj
      unfold windowRight at hc
      omega

/-- C12. For non-decreasing positions and every index `i`, the window
`[left_i, right_i]` that `findPeaksCpp` computes by linear expansion from `i`
(which it does only for peakDistance > 0) contains `i`, lies inside the
signal, and is exactly the set of sample indices `j` with
`|positions[j] - positions[i]| <= peakDistance`. -/
theorem findPeaksCpp_window_exact (positions : List Int) (peakDistance : Int)
    (hs : List.Sorted (fun a b : Int => a ≤ b) positions) (hpd : 0 < peakDistance)
    (i : Nat) (hi : i < positions.length) :
    windowLeft positions peakDistance i ≤ i ∧
      i ≤ windowRight positions peakDistance positions.length i ∧
      windowRight positions peakDistance positions.length i < positions.length ∧
      ∀ j, j < positions.length →
        ((windowLeft positions peakDistance i ≤ j ∧
            j ≤ windowRight positions peakDistance positions.length i) ↔
          |positions.getD j 0 - positions.getD i 0| ≤ peakDistance) := by
  obtain ⟨h1, h2, h3⟩ := window_bounds positions peakDistance i hi
  exact ⟨h1, h2, h3, fun j hj => window_iff_within positions peakDistance hs hpd i hi j hj⟩

/-- Witness for C12 on positions `[0,10,20,30,40]`, peakDistance 15, index 1. -/
theorem findPeaksCpp_window_exact_witness :
    windowLeft [0, 10, 20, 30, 40] 15 1 ≤ 1 ∧
      1 ≤ windowRight [0, 10, 20, 30, 40] 15 [(0 : Int), 10, 20, 30, 40].length 1 ∧
      windowRight [0, 10, 20, 30, 40] 15 [(0 : Int), 10, 20, 30, 40].length 1 <
        [(0 : Int), 10, 20, 30, 40].length ∧
      ∀ j, j < [(0 : Int), 10, 20, 30, 40].length →
        ((windowLeft [0, 10, 20, 30, 40] 15 1 ≤ j ∧
            j ≤ windowRight [0, 10, 20, 30, 40] 15 [(0 : Int), 10, 20, 30, 40].length 1) ↔
          |[(0 : Int), 10, 20, 30, 40].getD j 0 - [(0 : Int), 10, 20, 30, 40].getD 1 0| ≤ 15) :=
  findPeaksCpp_window_exact [0, 10, 20, 30, 40] 15 (by decide) (by decide) 1 (by decide)

/-! ## Labels and window winners -/

theorem findPeaksCpp_label (positions : List Int) (tags : List ℚ) (peakDistance : Int)
    (hlen : positions.length = tags.length) (hpd : 0 < peakDistance) (peakID : List Int)
    (h : findPeaksCpp positions tags peakDistance = Except.ok peakID)
    (i : Nat) (hi : i < positions.length) :
    (IsWindowWinner tags (windowLeft positions peakDistance i)
        (windowRight positions peakDistance positions.length i) i →
      peakID[i]? = some ((i : Int) + 1)) ∧
    (¬ IsWindowWinner tags (windowLeft positions peakDistance i)
        (windowRight positions peakDistance positions.length i) i →
      peakID[i]? = some 0) := by
  rw [findPeaksCpp_ok positions tags peakDistance hlen hpd] at h
  have hid := Except.ok.inj h
  subst hid
  rw [peakIteration_fold_getElem? _ _ _ _ _ _ i (by simpa using hi)]
  constructor
  · intro hw
    rw [if_pos ⟨List.mem_range.mpr hi, (scanWindow_winner _ _ _ _).mpr hw⟩]
  · intro hw
    rw [if_neg (fun h => hw ((scanWindow_winner _ _ _ _).mp h.2))]
    simp [hi]

theorem findPeaksCpp_labelled_iff (positions : List Int) (tags : List ℚ) (peakDistance : Int)
    (hlen : positions.length = tags.length) (hpd : 0 < peakDistance) (peakID : List Int)
    (h : findPeaksCpp positions tags peakDistance = Except.ok peakID)
    (i : Nat) (hi : i < positions.length) :
    0 < peakID.getD i 0 ↔
      IsWindowWinner tags (windowLeft positions peakDistance i)
        (windowRight positions peakDistance positions.length i) i := by
  obtain ⟨h1, h2⟩ := findPeaksCpp_label positions tags peakDistance hlen hpd peakID h i hi
  constructor
  · intro hpos
    by_contra hw
    rw [List.getD_eq_getElem?_getD, h2 hw] at hpos
    simp at hpos
  · intro hw
    rw [List.getD_eq_getElem?_getD, h1 hw]
    simp only [Option.getD_some]
    omega

theorem winners_far_apart (positions : List Int) (tags : List ℚ) (peakDistance : Int)
    (hs : List.Sorted (fun a b : Int => a ≤ b) positions) (hpd : 0 < peakDistance)
    (i j : Nat) (hi : i < positions.length) (hj : j < positions.length) (hij : i < j)
    (hwi : IsWindowWinner tags (windowLeft positions peakDistance i)
      (windowRight positions peakDistance positions.length i) i)
    (hwj : IsWindowWinner tags (windowLeft positions peakDistance j)
      (windowRight positions peakDistance positions.length j) j) :
    peakDistance < |positions.getD i 0 - positions.getD j 0| := by
  by_contra hnot
  have hle : |positions.getD i 0 - positions.getD j 0| ≤ peakDistance := not_lt.mp hnot
  have hle2 : |positions.getD j 0 - positions.getD i 0| ≤ peakDistance := by
    rw [abs_sub_comm]; exact hle
  obtain ⟨a1, a2⟩ := (window_iff_within positions peakDistance hs hpd i hi j hj).mpr hle2
  obtain ⟨b1, b2⟩ := (window_iff_within positions peakDistance hs hpd j hj i hi).mpr hle
  have h1 := (hwi j a1 a2).2 hij
  have h2 := (hwj i b1 b2).1 hij
  exact absurd h2 (not_lt.mpr h1)

/-- C18. For non-decreasing positions, tags of the same length and
peakDistance > 0, any two distinct samples that `findPeaksCpp` both labels
as peaks have positions that differ by more than peakDistance. -/
theorem findPeaksCpp_peaks_far_apart (positions : List Int) (tags : List ℚ)
    (peakDistance : Int) (hs : List.Sorted (fun a b : Int => a ≤ b) positions)
    (hlen : positions.length = tags.length) (hpd : 0 < peakDistance) :
    ∃ peakID, findPeaksCpp positions tags peakDistance = Except.ok peakID ∧
      ∀ i j, i < positions.length → j < positions.length → i ≠ j →
        0 < peakID.getD i 0 → 0 < peakID.getD j 0 →
        peakDistance < |positions.getD i 0 - positions.getD j 0| := by
  refine ⟨_, findPeaksCpp_ok positions tags peakDistance hlen hpd, ?_⟩
  intro i j hi hj hij hli hlj
  have hok := findPeaksCpp_ok positions tags peakDistance hlen hpd
  have hwi := (findPeaksCpp_labelled_iff positions tags peakDistance hlen hpd _ hok i hi).mp hli
  have hwj := (findPeaksCpp_labelled_iff positions tags peakDistance hlen hpd _ hok j hj).mp hlj
  rcases Nat.lt_or_gt_of_ne hij with h | h
  · exact winners_far_apart positions tags peakDistance hs hpd i j hi hj h hwi hwj
  · rw [abs_sub_comm]
    exact winners_far_apart positions tags peakDistance hs hpd j i hj hi h hwj hwi

/-- Witness for C18 on the scenario signal: the peaks at positions 10 and 30
are 20 apart, more than peakDistance 15. -/
theorem findPeaksCpp_peaks_far_apart_witness :
    ∃ peakID, findPeaksCpp [0, 10, 20, 30, 40] [1, 5, 2, 8, 1] 15 = Except.ok peakID ∧
      ∀ i j, i < [(0 : Int), 10, 20, 30, 40].length → j < [(0 : Int), 10, 20, 30, 40].length →
        i ≠ j → 0 < peakID.getD i 0 → 0 < peakID.getD j 0 →
        15 < |[(0 : Int), 10, 20, 30, 40].getD i 0 - [(0 : Int), 10, 20, 30, 40].getD j 0| :=
  findPeaksCpp_peaks_far_apart [0, 10, 20, 30, 40] [1, 5, 2, 8, 1] 15 (by decide) rfl (by decide)

/-- C20. For a non-empty signal (positions and tags of equal length N >= 1,
sorted or not) and peakDistance > 0, `findPeaksCpp` labels at least one
sample as a peak: the lowest-index sample holding the global maximum tag
receives its label `g + 1`. -/
theorem findPeaksCpp_global_max_labelled (positions : List Int) (tags : List ℚ)
    (peakDistance : Int) (hne : positions ≠ []) (hlen : positions.length = tags.length)
    (hpd : 0 < peakDistance) :
    ∃ peakID, findPeaksCpp positions tags peakDistance = Except.ok peakID ∧
      (∃ i, i < positions.length ∧ peakID[i]? = some ((i : Int) + 1)) ∧
      ∀ g, g < positions.length →
        (∀ j, j < positions.length → tags.getD j 0 ≤ tags.getD g 0) →
        (∀ j, j < g → tags.getD j 0 < tags.getD g 0) →
        peakID[g]? = some ((g : Int) + 1) := by
  have hok := findPeaksCpp_ok positions tags peakDistance hlen hpd
  have hmain : ∀ g, g < positions.length →
      (∀ j, j < positions.length → tags.getD j 0 ≤ tags.getD g 0) →
      (∀ j, j < g → tags.getD j 0 < tags.getD g 0) →
      ((List.range positions.length).foldl
        (peakIteration positions tags peakDistance positions.length)
        (List.replicate positions.length 0))[g]? = some ((g : Int) + 1) := by
    intro g hg hmax hlow
    apply (findPeaksCpp_label positions tags peakDistance hlen hpd _ hok g hg).1
    intro j _ hj2
    obtain ⟨_, _, hr⟩ := window_bounds positions peakDistance g hg
    exact ⟨fun hjg => hlow j hjg, fun _ => hmax j (by omega)⟩
  refine ⟨_, hok, ?_, hmain⟩
  have hn : 0 < positions.length := List.length_pos.mpr hne
  obtain ⟨m, hm, hmmax⟩ := Finset.exists_max_image (Finset.range positions.length)
    (fun j => tags.getD j 0) ⟨0, Finset.mem_range.mpr hn⟩
  have hex : ∃ k, k < positions.length ∧ tags.getD k 0 = tags.getD m 0 :=
    ⟨m, Finset.mem_range.mp hm, rfl⟩
  obtain ⟨hg1, hg2⟩ := Nat.find_spec hex
  refine ⟨Nat.find hex, hg1, hmain _ hg1 ?_ ?_⟩
  · intro j hj
    rw [hg2]
    exact hmmax j (Finset.mem_range.mpr hj)
  · intro j hj
    have hnot := Nat.find_min hex hj
    have hjn : j < positions.length := by omega
    have hle := hmmax j (Finset.mem_range.mpr hjn)
    simp only at hle
    rw [hg2]
    exact lt_of_le_of_ne hle (fun heq => hnot ⟨hjn, heq⟩)

/-- Witness for C20 on an unsorted signal with a tie for the maximum. -/
theorem findPeaksCpp_global_max_labelled_witness :
    ∃ peakID, findPeaksCpp [30, 0, 10] [2, 7, 7] 5 = Except.ok peakID ∧
      (∃ i, i < [(30 : Int), 0, 10].length ∧ peakID[i]? = some ((i : Int) + 1)) ∧
      ∀ g, g < [(30 : Int), 0, 10].length →
        (∀ j, j < [(30 : Int), 0, 10].length →
          ([2, 7, 7] : List ℚ).getD j 0 ≤ ([2, 7, 7] : List ℚ).getD g 0) →
        (∀ j, j < g → ([2, 7, 7] : List ℚ).getD j 0 < ([2, 7, 7] : List ℚ).getD g 0) →
        peakID[g]? = some ((g : Int) + 1) :=
  findPeaksCpp_global_max_labelled [30, 0, 10] [2, 7, 7] 5 (by decide) rfl (by decide)

/-! ## Masks as a reduction over peaks -/

theorem bool_list_ext (l1 l2 : List Bool) (hlen : l1.length = l2.length)
    (h : ∀ k, k < l1.length → (l1[k]? = some false ↔ l2[k]? = some false)) : l1 = l2 := by
  apply List.ext_getElem hlen
  intro k h1 h2
  have hk := h k h1
  rw [List.getElem?_eq_getElem h1, List.getElem?_eq_getElem h2] at hk
  cases hl1 : l1[k] <;> cases hl2 : l2[k] <;> simp [hl1, hl2] at hk ⊢

theorem getElem?_true_iff_not_false (l : List Bool) (k : Nat) (hk : k < l.length) :
    l[k]? = some true ↔ ¬ l[k]? = some false := by
  rw [List.getElem?_eq_getElem hk]
  cases l[k] <;> simp

theorem mask_false_iff (positions : List Int) (tags : List ℚ) (labels : List Int)
    (peakDistance : Int) (localThreshold : ℚ) (strand : String) (k : Nat)
    (hk : k < positions.length) :
    (((List.range positions.length).filter (fun i => decide (labels.getD i 0 > 0))).foldl
        (filterPass positions tags peakDistance localThreshold strand positions.length)
        (List.replicate positions.length true))[k]? = some false ↔
      ∃ p, p < positions.length ∧ 0 < labels.getD p 0 ∧
        passClears positions tags peakDistance localThreshold strand p k := by
  rw [filterPasses_false_iff _ _ _ _ _ _ _ _ k (by simpa using hk) hk]
  constructor
  · rintro (h | ⟨p, hp, hc⟩)
    · simp [hk] at h
    · rw [List.mem_filter, List.mem_range, decide_eq_true_eq] at hp
      exact ⟨p, hp.1, hp.2, hc⟩
  · rintro ⟨p, hp, hl, hc⟩
    refine Or.inr ⟨p, ?_, hc⟩
    rw [List.mem_filter, List.mem_range, decide_eq_true_eq]
    exact ⟨hp, hl⟩

theorem single_peak_label (n p q : Nat) (hp : p < n) :
    0 < ((List.replicate n (0 : Int)).set p ((p : Int) + 1)).getD q 0 ↔ q = p := by
  rw [List.getD_eq_getElem?_getD, List.getElem?_set]
  by_cases hpq : p = q
  · subst hpq
    simp [hp]
  · have hqp : ¬ q = p := fun h => hpq h.symm
    simp only [hpq, if_false, hqp, iff_false, not_lt]
    by_cases hq : q < n
    · simp [hq]
    · simp [hq]

/-- C13. Suppression in `localFilterCpp` is a cumulative, order-independent
reduction over peaks.  For label vectors `A`, `B`, `U` of length N where an
entry of `U` is positive exactly when it is positive in `A` or in `B`, the
mask for `U` is the pointwise AND of the masks for `A` and `B`; processing
the peaks of `U` in any order gives the same mask; and the mask for `U` keeps
a sample exactly when every single-peak mask of a peak of `U` keeps it. -/
theorem localFilterCpp_union_is_and (positions : List Int) (tags : List ℚ)
    (A B U : List Int) (peakDistance : Int) (localThreshold : ℚ) (strand : String)
    (_htags : tags.length = positions.length) (_hA : A.length = positions.length)
    (_hB : B.length = positions.length) (_hU : U.length = positions.length)
    (hunion : ∀ i, i < positions.length →
      (0 < U.getD i 0 ↔ 0 < A.getD i 0 ∨ 0 < B.getD i 0)) :
    ∃ keepA keepB keepU,
      localFilterCpp positions tags A peakDistance localThreshold strand = Except.ok keepA ∧
      localFilterCpp positions tags B peakDistance localThreshold strand = Except.ok keepB ∧
      localFilterCpp positions tags U peakDistance localThreshold strand = Except.ok keepU ∧
      keepU = List.zipWith (fun a b => a && b) keepA keepB ∧
      (∀ order : List Nat,
        order.Perm ((List.range positions.length).filter (fun i => decide (U.getD i 0 > 0))) →
        order.foldl
          (filterPass positions tags peakDistance localThreshold strand positions.length)
          (List.replicate positions.length true) = keepU) ∧
      (∀ i, i < positions.length →
        (keepU[i]? = some true ↔
          ∀ p, p < positions.length → 0 < U.getD p 0 →
            ∃ keepP,
              localFilterCpp positions tags
                ((List.replicate positions.length 0).set p ((p : Int) + 1))
                peakDistance localThreshold strand = Except.ok keepP ∧
              keepP[i]? = some true)) := by
  refine ⟨_, _, _, localFilterCpp_ok _ _ A _ _ _, localFilterCpp_ok _ _ B _ _ _,
    localFilterCpp_ok _ _ U _ _ _, ?_, ?_, ?_⟩
  · apply bool_list_ext
    · simp [filterPasses_length]
    · intro k hk
      have hkn : k < positions.length := by
        rw [filterPasses_length, List.length_replicate] at hk
        exact hk
      rw [mask_false_iff _ _ U _ _ _ k hkn, List.getElem?_zipWith]
      have hlA : k < (((List.range positions.length).filter
            (fun i => decide (A.getD i 0 > 0))).foldl
          (filterPass positions tags peakDistance localThreshold strand positions.length)
          (List.replicate positions.length true)).length := by
        rw [filterPasses_length, List.length_replicate]; exact hkn
      have hlB : k < (((List.range positions.length).filter
            (fun i => decide (B.getD i 0 > 0))).foldl
          (filterPass positions tags peakDistance localThreshold strand positions.length)
          (List.replicate positions.length true)).length := by
        rw [filterPasses_length, List.length_replicate]; exact hkn
      have hA := mask_false_iff positions tags A peakDistance localThreshold strand k hkn
      have hB := mask_false_iff positions tags B peakDistance localThreshold strand k hkn
      rw [List.getElem?_eq_getElem hlA] at hA ⊢
      rw [List.getElem?_eq_getElem hlB] at hB ⊢
      simp only [Option.some.injEq, Bool.and_eq_false_iff]
      simp only [Option.some.injEq] at hA hB
      rw [hA, hB]
      constructor
      · rintro ⟨p, hp, hl, hc⟩
        rcases (hunion p hp).mp hl with h | h
        · exact Or.inl ⟨p, hp, h, hc⟩
        · exact Or.inr ⟨p, hp, h, hc⟩
      · rintro (⟨p, hp, hl, hc⟩ | ⟨p, hp, hl, hc⟩)
        · exact ⟨p, hp, (hunion p hp).mpr (Or.inl hl), hc⟩
        · exact ⟨p, hp, (hunion p hp).mpr (Or.inr hl), hc⟩
  · intro order hperm
    apply bool_list_ext
    · simp [filterPasses_length]
    · intro k hk
      have hkn : k < positions.length := by
        rw [filterPasses_length, List.length_replicate] at hk
        exact hk
      rw [filterPasses_false_iff _ _ _ _ _ _ _ _ k (by simpa using hkn) hkn,
        filterPasses_false_iff _ _ _ _ _ _ _ _ k (by simpa using hkn) hkn]
      constructor
      · rintro (h | ⟨p, hp, hc⟩)
        · exact Or.inl h
        · exact Or.inr ⟨p, hperm.mem_iff.mp hp, hc⟩
      · rintro (h | ⟨p, hp, hc⟩)
        · exact Or.inl h
        · exact Or.inr ⟨p, hperm.mem_iff.mpr hp, hc⟩
  · intro i hi
    rw [getElem?_true_iff_not_false _ _ (by rw [filterPasses_length]; simpa using hi),
      mask_false_iff _ _ U _ _ _ i hi]
    constructor
    · intro hnot p hp hl
      refine ⟨_, localFilterCpp_ok _ _ _ _ _ _, ?_⟩
      rw [getElem?_true_iff_not_false _ _ (by rw [filterPasses_length]; simpa using hi),
        mask_false_iff _ _ _ _ _ _ i hi]
      rintro ⟨q, hq, hlq, hc⟩
      have hqp := (single_peak_label positions.length p q hp).mp hlq
      subst hqp
      exact hnot ⟨q, hq, hl, hc⟩
    · intro hall
      rintro ⟨p, hp, hl, hc⟩
      obtain ⟨keepP, hkeep, htrue⟩ := hall p hp hl
      rw [localFilterCpp_ok] at hkeep
      have hid := Except.ok.inj hkeep
      subst hid
      rw [getElem?_true_iff_not_false _ _ (by rw [filterPasses_length]; simpa using hi),
        mask_false_iff _ _ _ _ _ _ i hi] at htrue
      exact htrue ⟨p, hp, (single_peak_label positions.length p p hp).mpr rfl, hc⟩

/-- Witness for C13: labels `[0,2,0]` and `[0,0,3]` with union `[0,2,3]`. -/
theorem localFilterCpp_union_is_and_witness :
    ∃ keepA keepB keepU,
      localFilterCpp [0, 5, 10] [1, 9, 4] [0, 2, 0] 6 (1 / 2) "-" = Except.ok keepA ∧
      localFilterCpp [0, 5, 10] [1, 9, 4] [0, 0, 3] 6 (1 / 2) "-" = Except.ok keepB ∧
      localFilterCpp [0, 5, 10] [1, 9, 4] [0, 2, 3] 6 (1 / 2) "-" = Except.ok keepU ∧
      keepU = List.zipWith (fun a b => a && b) keepA keepB ∧
      (∀ order : List Nat,
        order.Perm ((List.range [(0 : Int), 5, 10].length).filter
          (fun i => decide ([(0 : Int), 2, 3].getD i 0 > 0))) →
        order.foldl (filterPass [0, 5, 10] [1, 9, 4] 6 (1 / 2) "-" [(0 : Int), 5, 10].length)
          (List.replicate [(0 : Int), 5, 10].length true) = keepU) ∧
      (∀ i, i < [(0 : Int), 5, 10].length →
        (keepU[i]? = some true ↔
          ∀ p, p < [(0 : Int), 5, 10].length → 0 < [(0 : Int), 2, 3].getD p 0 →
            ∃ keepP,
              localFilterCpp [0, 5, 10] [1, 9, 4]
                ((List.replicate [(0 : Int), 5, 10].length 0).set p ((p : Int) + 1))
                6 (1 / 2) "-" = Except.ok keepP ∧
              keepP[i]? = some true)) :=
  localFilterCpp_union_is_and [0, 5, 10] [1, 9, 4] [0, 2, 0] [0, 0, 3] [0, 2, 3] 6 (1 / 2) "-"
    rfl rfl rfl rfl (by decide)

/-! ## Composition of the two stages -/

theorem passClears_within (positions : List Int) (tags : List ℚ) (peakDistance : Int)
    (localThreshold : ℚ) (strand : String) (p i : Nat) (hpd : 0 < peakDistance)
    (hc : passClears positions tags peakDistance localThreshold strand p i) :
    i ≠ p ∧ |positions.getD i 0 - positions.getD p 0| ≤ peakDistance := by
  obtain ⟨⟨h1, h2⟩, _, h4⟩ := hc
  refine ⟨h4, ?_⟩
  rw [abs_le]
  unfold filterRegion at h1 h2
  by_cases hs : strand = "+"
  · rw [if_pos hs] at h1 h2
    simp only at h1 h2
    constructor <;> omega
  · rw [if_neg hs] at h1 h2
    simp only at h1 h2
    constructor <;> omega

/-- C19. Composition of the two stages never drops a peak: for
non-decreasing positions, tags of the same length, peakDistance > 0, every
localThreshold and every strand, if `labels` is the result of `findPeaksCpp`
then the mask of `localFilterCpp` on these labels (same peakDistance) is true
at every index whose label is positive. -/
theorem localFilterCpp_keeps_peaks (positions : List Int) (tags : List ℚ)
    (peakDistance : Int) (localThreshold : ℚ) (strand : String)
    (hs : List.Sorted (fun a b : Int => a ≤ b) positions)
    (hlen : positions.length = tags.length) (hpd : 0 < peakDistance) :
    ∃ labels keep, findPeaksCpp positions tags peakDistance = Except.ok labels ∧
      localFilterCpp positions tags labels peakDistance localThreshold strand =
        Except.ok keep ∧
      ∀ i, i < positions.length → 0 < labels.getD i 0 → keep[i]? = some true := by
  have hok := findPeaksCpp_ok positions tags peakDistance hlen hpd
  refine ⟨_, _, hok, localFilterCpp_ok _ _ _ _ _ _, ?_⟩
  intro i hi hli
  rw [getElem?_true_iff_not_false _ _ (by rw [filterPasses_length]; simpa using hi),
    mask_false_iff _ _ _ _ _ _ i hi]
  rintro ⟨p, hp, hlp, hc⟩
  obtain ⟨hne, hnear⟩ := passClears_within positions tags peakDistance localThreshold strand
    p i hpd hc
  have hwi := (findPeaksCpp_labelled_iff positions tags peakDistance hlen hpd _ hok i hi).mp hli
  have hwp := (findPeaksCpp_labelled_iff positions tags peakDistance hlen hpd _ hok p hp).mp hlp
  rcases Nat.lt_or_gt_of_ne hne with h | h
  · exact absurd (winners_far_apart positions tags peakDistance hs hpd i p hi hp h hwi hwp)
      (not_lt.mpr hnear)
  · have hfar := winners_far_apart positions tags peakDistance hs hpd p i hp hi h hwp hwi
    rw [abs_sub_comm] at hfar
    exact absurd hfar (not_lt.mpr hnear)

/-- Witness for C19 on the scenario signal with localThreshold 2 and strand
`"+"`. -/
theorem localFilterCpp_keeps_peaks_witness :
    ∃ labels keep, findPeaksCpp [0, 10, 20, 30, 40] [1, 5, 2, 8, 1] 15 = Except.ok labels ∧
      localFilterCpp [0, 10, 20, 30, 40] [1, 5, 2, 8, 1] labels 15 2 "+" = Except.ok keep ∧
      ∀ i, i < [(0 : Int), 10, 20, 30, 40].length → 0 < labels.getD i 0 →
        keep[i]? = some true :=
  localFilterCpp_keeps_peaks [0, 10, 20, 30, 40] [1, 5, 2, 8, 1] 15 2 "+" (by decide) rfl
    (by decide)

/-! ## Clusters: zero tag mass and positive tag mass -/

theorem sliceOf_getD {α : Type} (v : List α) (d : α) (start_c end_c : Int)
    (hv : ValidBounds v.length start_c end_c) (k : Nat)
    (hk : k < (end_c - start_c + 1).toNat) :
    (sliceOf v start_c end_c).getD k d = v.getD ((start_c - 1).toNat + k) d := by
  obtain ⟨h1, h2, h3⟩ := hv
  have hl : k < (sliceOf v start_c end_c).length := by
    rw [sliceOf_length v start_c end_c ⟨h1, h2, h3⟩]; exact hk
  rw [List.getD_eq_getElem _ _ hl, List.getD_eq_getElem _ _ (by omega)]
  simp [sliceOf]

theorem runningSum_zero (tags : List ℚ) (hz : ∀ t ∈ tags, t = 0) (from_end : Bool) (k : Nat) :
    runningSum tags from_end k = 0 := by
  cases from_end with
  | false =>
    simp only [runningSum, Bool.false_eq_true, if_false]
    exact List.sum_eq_zero (fun x hx => hz x (List.mem_of_mem_take hx))
  | true =>
    simp only [runningSum, if_true]
    exact List.sum_eq_zero (fun x hx => hz x (List.mem_of_mem_drop hx))

theorem clusterEntry_zero (positions : List Int) (tags : List ℚ) (start_c end_c : Int)
    (hlen : tags.length = positions.length)
    (hv : ValidBounds positions.length start_c end_c)
    (hz : ∀ t ∈ sliceOf tags start_c end_c, t = 0) :
    clusterEntry positions tags start_c end_c =
      (some (positions.getD (end_c - 1).toNat 0), some (positions.getD (start_c - 1).toNat 0),
        some (positions.getD (start_c - 1).toNat 0 - positions.getD (end_c - 1).toNat 0 + 1)) := by
  have hvt : ValidBounds tags.length start_c end_c := by rw [hlen]; exact hv
  have hl1 := sliceOf_length positions start_c end_c hv
  have hl2 := sliceOf_length tags start_c end_c hvt
  obtain ⟨h1, h2, h3⟩ := hv
  have hne : sliceOf positions start_c end_c ≠ [] := by
    intro h
    rw [h] at hl1
    simp only [List.length_nil] at hl1
    omega
  have hsum : (sliceOf tags start_c end_c).sum = 0 := List.sum_eq_zero hz
  have hnone : ∀ (fe : Bool) (k : Nat), k < (sliceOf positions start_c end_c).length →
      ¬ runningSum (sliceOf tags start_c end_c) fe k >
        (sliceOf tags start_c end_c).sum * (1 / 10) := by
    intro fe k _
    rw [runningSum_zero _ hz, hsum, zero_mul]
    exact lt_irrefl 0
  have hlo := quantilePosition_fallback (sliceOf positions start_c end_c)
    (sliceOf tags start_c end_c) (1 / 10) false hne (by rw [hl1, hl2]) (hnone false)
  have hhi := quantilePosition_fallback (sliceOf positions start_c end_c)
    (sliceOf tags start_c end_c) (1 / 10) true hne (by rw [hl1, hl2]) (hnone true)
  obtain ⟨lo, hi, hlo2, hhi2, he⟩ :=
    clusterEntry_valid positions tags start_c end_c hlen ⟨h1, h2, h3⟩
  rw [hlo] at hlo2
  rw [hhi] at hhi2
  have e1 := Option.some.inj (Except.ok.inj hlo2)
  have e2 := Option.some.inj (Except.ok.inj hhi2)
  simp only [lastScanned, Bool.false_eq_true, if_false, if_true] at e1 e2
  rw [sliceOf_getD positions 0 start_c end_c ⟨h1, h2, h3⟩ _ (by omega)] at e1 e2
  rw [hl1] at e1
  have ha : (start_c - 1).toNat + ((end_c - start_c + 1).toNat - 1) = (end_c - 1).toNat := by
    omega
  rw [ha] at e1
  rw [Nat.add_zero] at e2
  rw [he, ← e1, ← e2]

/-- C14. For every valid cluster whose slice has all tags equal to zero, the
threshold is 0 and no running sum is strictly above it, so both quantile
calls take the fallback path: `q_low` is the position of the last sample of
the slice, `q_high` the position of the first sample of the slice, and the
width is `q_high - q_low + 1` of these two positions. -/
theorem calculateClusterQuantilesCpp_zero_tags (positions : List Int) (tags : List ℚ)
    (cluster_starts cluster_ends : List Int) (hsig : tags.length = positions.length)
    (_hcl : cluster_ends.length = cluster_starts.length) :
    ∃ out, calculateClusterQuantilesCpp positions tags cluster_starts cluster_ends =
        Except.ok out ∧
      ∀ c, c < cluster_starts.length →
        ValidBounds positions.length (cluster_starts.getD c 0) (cluster_ends.getD c 0) →
        (∀ t ∈ sliceOf tags (cluster_starts.getD c 0) (cluster_ends.getD c 0), t = 0) →
        (sliceOf tags (cluster_starts.getD c 0) (cluster_ends.getD c 0)).sum * (1 / 10) = 0 ∧
        (∀ (from_end : Bool) (k : Nat),
          ¬ runningSum (sliceOf tags (cluster_starts.getD c 0) (cluster_ends.getD c 0))
              from_end k >
            (sliceOf tags (cluster_starts.getD c 0) (cluster_ends.getD c 0)).sum * (1 / 10)) ∧
        out.q01[c]? = some (some (positions.getD (cluster_ends.getD c 0 - 1).toNat 0)) ∧
        out.q09[c]? = some (some (positions.getD (cluster_starts.getD c 0 - 1).toNat 0)) ∧
        out.iq_width[c]? = some (some
          (positions.getD (cluster_starts.getD c 0 - 1).toNat 0 -
            positions.getD (cluster_ends.getD c 0 - 1).toNat 0 + 1)) := by
  obtain ⟨out, hout, _, _, _, hent⟩ :=
    calculateClusterQuantilesCpp_entries positions tags cluster_starts cluster_ends
  refine ⟨out, hout, ?_⟩
  intro c hc hv hz
  obtain ⟨h1, h2, h3⟩ := hent c hc
  have hsum : (sliceOf tags (cluster_starts.getD c 0) (cluster_ends.getD c 0)).sum = 0 :=
    List.sum_eq_zero hz
  refine ⟨by rw [hsum, zero_mul], ?_, ?_, ?_, ?_⟩
  · intro fe k
    rw [runningSum_zero _ hz, hsum, zero_mul]
    exact lt_irrefl 0
  · rw [h1, clusterEntry_zero positions tags _ _ hsig hv hz]
  · rw [h2, clusterEntry_zero positions tags _ _ hsig hv hz]
  · rw [h3, clusterEntry_zero positions tags _ _ hsig hv hz]

/-- Witness for C14: three zero-tag samples, cluster `(1,3)`. -/
theorem calculateClusterQuantilesCpp_zero_tags_witness :
    ∃ out, calculateClusterQuantilesCpp [0, 10, 20] [0, 0, 0] [1] [3] = Except.ok out ∧
      ∀ c, c < [(1 : Int)].length →
        ValidBounds [(0 : Int), 10, 20].length ([(1 : Int)].getD c 0) ([(3 : Int)].getD c 0) →
        (∀ t ∈ sliceOf ([0, 0, 0] : List ℚ) ([(1 : Int)].getD c 0) ([(3 : Int)].getD c 0),
          t = 0) →
        (sliceOf ([0, 0, 0] : List ℚ) ([(1 : Int)].getD c 0) ([(3 : Int)].getD c 0)).sum *
          (1 / 10) = 0 ∧
        (∀ (from_end : Bool) (k : Nat),
          ¬ runningSum (sliceOf ([0, 0, 0] : List ℚ) ([(1 : Int)].getD c 0)
              ([(3 : Int)].getD c 0)) from_end k >
            (sliceOf ([0, 0, 0] : List ℚ) ([(1 : Int)].getD c 0) ([(3 : Int)].getD c 0)).sum *
              (1 / 10)) ∧
        out.q01[c]? = some (some ([(0 : Int), 10, 20].getD ([(3 : Int)].getD c 0 - 1).toNat 0)) ∧
        out.q09[c]? = some (some ([(0 : Int), 10, 20].getD ([(1 : Int)].getD c 0 - 1).toNat 0)) ∧
        out.iq_width[c]? = some (some
          ([(0 : Int), 10, 20].getD ([(1 : Int)].getD c 0 - 1).toNat 0 -
            [(0 : Int), 10, 20].getD ([(3 : Int)].getD c 0 - 1).toNat 0 + 1)) :=
  calculateClusterQuantilesCpp_zero_tags [0, 10, 20] [0, 0, 0] [1] [3] rfl rfl

/-- C15, as stated, fails: on three zero-tag samples at positions
`[0,10,20]` and the cluster `(1,3)`, `q_low = 20` comes from the sample with
index 2 and `q_high = 0` from the sample with index 0; no pair of samples
holding these two positions has indices that differ by at most 1. -/
theorem calculateClusterQuantilesCpp_fallbacks_not_adjacent :
    ValidBounds ([0, 10, 20] : List Int).length 1 3 ∧
      (∀ t ∈ sliceOf ([0, 0, 0] : List ℚ) 1 3, t = 0) ∧
      ∃ out, calculateClusterQuantilesCpp [0, 10, 20] [0, 0, 0] [1] [3] = Except.ok out ∧
        out.q01 = [some 20] ∧ out.q09 = [some 0] ∧ out.iq_width = [some (-19)] ∧
        ∀ a, a < 3 → ∀ b, b < 3 →
          ([0, 10, 20] : List Int).getD a 0 = 20 → ([0, 10, 20] : List Int).getD b 0 = 0 →
          ¬ (a ≤ b + 1 ∧ b ≤ a + 1) := by
  refine ⟨by unfold ValidBounds; decide, by simp [sliceOf], ?_⟩
  refine ⟨{ q01 := [some 20], q09 := [some 0], iq_width := [some (-19)] }, ?_,
    rfl, rfl, rfl, by decide⟩
  simp [calculateClusterQuantilesCpp, clusterLoop, clusterIteration,
    calculateQuantilePositionCpp, quantileScan, List.range, List.range.loop,
    interquantileWidth]

/-- C15 (amended). For every valid cluster whose slice has all tags equal to
zero, `q_low` is read from the last sample of the slice (0-based signal index
`end_c - 1`) and `q_high` from the first (index `start_c - 1`); the two
indices differ by `end_c - start_c`, so they are the same or neighbouring
samples exactly when the cluster has at most two samples. -/
theorem calculateClusterQuantilesCpp_fallback_indices (positions : List Int) (tags : List ℚ)
    (cluster_starts cluster_ends : List Int) (hsig : tags.length = positions.length)
    (_hcl : cluster_ends.length = cluster_starts.length) :
    ∃ out, calculateClusterQuantilesCpp positions tags cluster_starts cluster_ends =
        Except.ok out ∧
      ∀ c, c < cluster_starts.length →
        ValidBounds positions.length (cluster_starts.getD c 0) (cluster_ends.getD c 0) →
        (∀ t ∈ sliceOf tags (cluster_starts.getD c 0) (cluster_ends.getD c 0), t = 0) →
        ∃ iLow iHigh : Nat,
          (iLow : Int) = cluster_ends.getD c 0 - 1 ∧
          (iHigh : Int) = cluster_starts.getD c 0 - 1 ∧
          iLow < positions.length ∧ iHigh ≤ iLow ∧
          out.q01[c]? = some (some (positions.getD iLow 0)) ∧
          out.q09[c]? = some (some (positions.getD iHigh 0)) ∧
          (iLow : Int) - (iHigh : Int) = cluster_ends.getD c 0 - cluster_starts.getD c 0 ∧
          (iLow ≤ iHigh + 1 ↔
            cluster_ends.getD c 0 - cluster_starts.getD c 0 + 1 ≤ 2) := by
  obtain ⟨out, hout, _, _, _, hent⟩ :=
    calculateClusterQuantilesCpp_entries positions tags cluster_starts cluster_ends
  refine ⟨out, hout, ?_⟩
  intro c hc hv hz
  obtain ⟨h1, h2, _⟩ := hent c hc
  have he := clusterEntry_zero positions tags _ _ hsig hv hz
  obtain ⟨v1, v2, v3⟩ := hv
  refine ⟨(cluster_ends.getD c 0 - 1).toNat, (cluster_starts.getD c 0 - 1).toNat,
    by omega, by omega, by omega, by omega, ?_, ?_, by omega, by omega⟩
  · rw [h1, he]
  · rw [h2, he]

/-- Witness for the amended C15: three zero-tag samples, cluster `(1,3)`. -/
theorem calculateClusterQuantilesCpp_fallback_indices_witness :
    ∃ out, calculateClusterQuantilesCpp [0, 10, 20] [0, 0, 0] [1] [3] = Except.ok out ∧
      ∀ c, c < [(1 : Int)].length →
        ValidBounds [(0 : Int), 10, 20].length ([(1 : Int)].getD c 0) ([(3 : Int)].getD c 0) →
        (∀ t ∈ sliceOf ([0, 0, 0] : List ℚ) ([(1 : Int)].getD c 0) ([(3 : Int)].getD c 0),
          t = 0) →
        ∃ iLow iHigh : Nat,
          (iLow : Int) = [(3 : Int)].getD c 0 - 1 ∧
          (iHigh : Int) = [(1 : Int)].getD c 0 - 1 ∧
          iLow < [(0 : Int), 10, 20].length ∧ iHigh ≤ iLow ∧
          out.q01[c]? = some (some ([(0 : Int), 10, 20].getD iLow 0)) ∧
          out.q09[c]? = some (some ([(0 : Int), 10, 20].getD iHigh 0)) ∧
          (iLow : Int) - (iHigh : Int) = [(3 : Int)].getD c 0 - [(1 : Int)].getD c 0 ∧
          (iLow ≤ iHigh + 1 ↔ [(3 : Int)].getD c 0 - [(1 : Int)].getD c 0 + 1 ≤ 2) :=
  calculateClusterQuantilesCpp_fallback_indices [0, 10, 20] [0, 0, 0] [1] [3] rfl rfl

theorem quantile_low_le_high (positions : List Int) (tags : List ℚ) (quantile : ℚ)
    (hne : positions ≠ []) (hlen : tags.length = positions.length)
    (hs : List.Sorted (fun a b : Int => a ≤ b) positions) (hq : quantile < 1 / 2)
    (hsum : 0 < tags.sum) :
    ∃ lo hi,
      calculateQuantilePositionCpp positions tags quantile false = Except.ok (some lo) ∧
      calculateQuantilePositionCpp positions tags quantile true = Except.ok (some hi) ∧
      lo ≤ hi := by
  have hn : 0 < positions.length := List.length_pos.mpr hne
  have hthr : tags.sum * quantile < tags.sum := by
    nlinarith [mul_pos hsum (sub_pos.mpr hq)]
  have hexF : ∃ k, k < positions.length ∧ runningSum tags false k > tags.sum * quantile := by
    refine ⟨positions.length - 1, by omega, ?_⟩
    simp only [runningSum, Bool.false_eq_true, if_false]
    rw [List.take_of_length_le (by omega)]
    exact hthr
  have hexB : ∃ m, m < positions.length ∧
      runningSum tags true (positions.length - 1 - m) > tags.sum * quantile := by
    refine ⟨positions.length - 1, by omega, ?_⟩
    simp only [runningSum, if_true]
    rw [show positions.length - 1 - (positions.length - 1) = 0 by omega, List.drop_zero]
    exact hthr
  obtain ⟨ha1, ha2⟩ := Nat.find_spec hexF
  obtain ⟨hb1, hb2⟩ := Nat.find_spec hexB
  have hfirstF : ∀ j, j < positions.length → ScannedBefore false j (Nat.find hexF) →
      ¬ runningSum tags false j > tags.sum * quantile := by
    intro j hj hsb hgt
    simp only [ScannedBefore, Bool.false_eq_true, if_false] at hsb
    exact Nat.find_min hexF hsb ⟨hj, hgt⟩
  have hfirstB : ∀ j, j < positions.length →
      ScannedBefore true j (positions.length - 1 - Nat.find hexB) →
      ¬ runningSum tags true j > tags.sum * quantile := by
    intro j hj hsb hgt
    simp only [ScannedBefore, if_true] at hsb
    have hlt : positions.length - 1 - j < Nat.find hexB := by omega
    apply Nat.find_min hexB hlt
    refine ⟨by omega, ?_⟩
    rw [show positions.length - 1 - (positions.length - 1 - j) = j by omega]
    exact hgt
  refine ⟨_, _,
    quantilePosition_hit positions tags quantile false hne hlen _ ha1 ha2 hfirstF,
    quantilePosition_hit positions tags quantile true hne hlen _ (by omega) hb2 hfirstB, ?_⟩
  apply sorted_getD positions hs _ _ _ (by omega)
  by_contra hnot
  have hlt : positions.length - 1 - Nat.find hexB < Nat.find hexF := not_le.mp hnot
  have h1 : ¬ runningSum tags false (positions.length - 1 - Nat.find hexB) >
      tags.sum * quantile :=
    hfirstF _ (by omega) (by simpa [ScannedBefore] using hlt)
  have h2 : ¬ runningSum tags true (positions.length - 1 - Nat.find hexB + 1) >
      tags.sum * quantile :=
    hfirstB _ (by omega) (by simp only [ScannedBefore, if_true]; omega)
  simp only [runningSum, Bool.false_eq_true, if_false, if_true, gt_iff_lt, not_lt] at h1 h2
  have h3 := List.sum_take_add_sum_drop tags (positions.length - 1 - Nat.find hexB + 1)
  nlinarith [mul_pos hsum (sub_pos.mpr hq)]

/-- C17. For non-decreasing positions and non-negative tags, every valid
cluster whose slice has strictly positive total tag mass gets
`q_low <= q_high` and a width of at least 1; a width that is not positive
arises only for a cluster whose tags sum to zero. -/
theorem calculateClusterQuantilesCpp_positive_mass (positions : List Int) (tags : List ℚ)
    (cluster_starts cluster_ends : List Int)
    (hs : List.Sorted (fun a b : Int => a ≤ b) positions) (hnonneg : ∀ t ∈ tags, 0 ≤ t)
    (hsig : tags.length = positions.length)
    (_hcl : cluster_ends.length = cluster_starts.length) :
    ∃ out, calculateClusterQuantilesCpp positions tags cluster_starts cluster_ends =
        Except.ok out ∧
      ∀ c, c < cluster_starts.length →
        ValidBounds positions.length (cluster_starts.getD c 0) (cluster_ends.getD c 0) →
        ∃ q_low q_high width,
          out.q01[c]? = some (some q_low) ∧ out.q09[c]? = some (some q_high) ∧
          out.iq_width[c]? = some (some width) ∧
          (0 < (sliceOf tags (cluster_starts.getD c 0) (cluster_ends.getD c 0)).sum →
            q_low ≤ q_high ∧ 1 ≤ width) ∧
          (width ≤ 0 →
            (sliceOf tags (cluster_starts.getD c 0) (cluster_ends.getD c 0)).sum = 0) := by
  obtain ⟨out, hout, _, _, _, hent⟩ :=
    calculateClusterQuantilesCpp_entries positions tags cluster_starts cluster_ends
  refine ⟨out, hout, ?_⟩
  intro c hc hv
  obtain ⟨h1, h2, h3⟩ := hent c hc
  obtain ⟨lo, hi, hlo, hhi, he⟩ := clusterEntry_valid positions tags _ _ hsig hv
  have hvt : ValidBounds tags.length (cluster_starts.getD c 0) (cluster_ends.getD c 0) := by
    rw [hsig]; exact hv
  have hl1 := sliceOf_length positions _ _ hv
  have hl2 := sliceOf_length tags _ _ hvt
  have hne : sliceOf positions (cluster_starts.getD c 0) (cluster_ends.getD c 0) ≠ [] := by
    intro h
    rw [h] at hl1
    obtain ⟨v1, v2, v3⟩ := hv
    simp only [List.length_nil] at hl1
    omega
  have hsorted : List.Sorted (fun a b : Int => a ≤ b)
      (sliceOf positions (cluster_starts.getD c 0) (cluster_ends.getD c 0)) :=
    List.Pairwise.sublist
      ((List.take_sublist _ _).trans (List.drop_sublist _ _)) hs
  have hpos : 0 < (sliceOf tags (cluster_starts.getD c 0) (cluster_ends.getD c 0)).sum →
      lo ≤ hi := by
    intro hsum
    obtain ⟨lo2, hi2, hlo2, hhi2, hle⟩ := quantile_low_le_high _ _ (1 / 10) hne
      (by rw [hl1, hl2]) hsorted (by norm_num) hsum
    rw [hlo] at hlo2
    rw [hhi] at hhi2
    rw [Option.some.inj (Except.ok.inj hlo2), Option.some.inj (Except.ok.inj hhi2)]
    exact hle
  refine ⟨lo, hi, hi - lo + 1, by rw [h1, he], by rw [h2, he], by rw [h3, he], ?_, ?_⟩
  · intro hsum
    have := hpos hsum
    constructor <;> omega
  · intro hw
    have hge : 0 ≤ (sliceOf tags (cluster_starts.getD c 0) (cluster_ends.getD c 0)).sum :=
      List.sum_nonneg (fun x hx =>
        hnonneg x (List.mem_of_mem_drop (List.mem_of_mem_take hx)))
    rcases lt_or_eq_of_le hge with h | h
    · have := hpos h
      omega
    · exact h.symm

/-- Witness for C17: one cluster with positive mass, one with zero mass. -/
theorem calculateClusterQuantilesCpp_positive_mass_witness :
    ∃ out, calculateClusterQuantilesCpp [0, 10, 20, 30] [1, 2, 0, 0] [1, 3] [2, 4] =
        Except.ok out ∧
      ∀ c, c < [(1 : Int), 3].length →
        ValidBounds [(0 : Int), 10, 20, 30].length ([(1 : Int), 3].getD c 0)
          ([(2 : Int), 4].getD c 0) →
        ∃ q_low q_high width,
          out.q01[c]? = some (some q_low) ∧ out.q09[c]? = some (some q_high) ∧
          out.iq_width[c]? = some (some width) ∧
          (0 < (sliceOf ([1, 2, 0, 0] : List ℚ) ([(1 : Int), 3].getD c 0)
              ([(2 : Int), 4].getD c 0)).sum →
            q_low ≤ q_high ∧ 1 ≤ width) ∧
          (width ≤ 0 →
            (sliceOf ([1, 2, 0, 0] : List ℚ) ([(1 : Int), 3].getD c 0)
              ([(2 : Int), 4].getD c 0)).sum = 0) :=
  calculateClusterQuantilesCpp_positive_mass [0, 10, 20, 30] [1, 2, 0, 0] [1, 3] [2, 4]
    (by decide) (by simp) rfl rfl

/-! ## Quantile >= 1 in double arithmetic -/

theorem roundHalfEven_near (a b : Nat) (hb : 0 < b) :
    2 * a ≤ 2 * (roundHalfEven a b * b) + b ∧ 2 * (roundHalfEven a b * b) ≤ 2 * a + b := by
  have hdm := Nat.div_add_mod a b
  have hlt := Nat.mod_lt a hb
  have hmul : b * (a / b) = a / b * b := Nat.mul_comm _ _
  unfold roundHalfEven
  split
  · constructor <;> omega
  · split
    · rw [Nat.add_mul]
      constructor <;> omega
    · split
      · constructor <;> omega
      · rw [Nat.add_mul]
        constructor <;> omega

end PeakDetection
